import Mathlib

/-!
Verification of the training-and-inference core (`src/model.cc`).

The development shallowly embeds the functions of `Model` (fastText's
`model.cc`): the Huffman tree builder `buildTree`, the per-class path/code
derivation, the negative-sampling table builder `initTableNegatives`, the
cursor-based draw `getNegative`, the three scoring strategies, the trainer
`update`, and the ranker `predict` (heap scan `findKBest` and tree DFS `dfs`).

Modelling conventions:
* `real` (C++ `float`) is modelled as exact arithmetic, generically over a
  `LinearOrderedField`, and as `ℝ` where transcendental functions
  (`exp`, `sqrt`) are involved.
* `int32_t`/`int64_t` values are modelled as `Int` (no claim here depends on
  machine-width overflow).
* `std::vector` indexing is total: reads outside the valid range return the
  default-initialized node (the same sentinel state `tree.resize` produces)
  and writes outside the range are dropped; in C++ these accesses are
  undefined behaviour, and they only occur on inputs that already violate
  the tree builder's implicit count bound.
* loops that are not structurally recursive (`while (tree[j].parent != -1)`,
  the `do/while` retry in `getNegative`, the recursive `dfs`) take an
  explicit fuel argument; sufficiency of the fuel is proved where the
  corresponding claim needs termination.
* the C++ standard heap primitives (`push_heap`, `pop_heap` at the front,
  `sort_heap`) acting with comparator `comparePairs (l, r) = l.first > r.first`
  are modelled behaviourally: the heap is a list kept sorted by ascending
  score (so its front is the minimum, exactly what `heap.front()` is used
  for), `push_heap` is ordered insertion, `pop_heap` followed by `pop_back`
  drops the front, and the final `sort_heap` yields the scores in descending
  order, here by reversing the ascending list.
-/

/-! ## Huffman tree builder (`Model::buildTree`, model.cc lines 221-263) -/

/-- One entry of `std::vector<Node> tree`.  Fields and their initial values
follow the init loop in `buildTree` (lines 223-229): `parent = left = right
= -1`, `count = 1e15`, `binary = false`. -/
structure HNode where
  parent : Int := -1
  left : Int := -1
  right : Int := -1
  count : Int := 10 ^ 15
  binary : Bool := false
deriving Repr, DecidableEq

/-- The sentinel state `tree.resize` leaves in every slot (init loop,
lines 223-229). -/
instance : Inhabited HNode := ⟨{}⟩

/-- Total model of `tree[i]` for `i : Int`: out-of-range reads give the
default (sentinel) node. -/
def nget (t : List HNode) (i : Int) : HNode :=
  if i < 0 then default else t.getD i.toNat default

/-- Total model of a field write `tree[i].f = v`: out-of-range writes are
dropped (`List.set` is the identity there). -/
def nset (t : List HNode) (i : Int) (f : HNode → HNode) : List HNode :=
  if i < 0 then t else t.set i.toNat (f (nget t i))

/-- The tree after `resize(2*osz-1)`, the sentinel-init loop and the
`tree[i].count = counts[i]` loop (lines 222-232). -/
def initTree (osz : ℕ) (counts : List Int) : List HNode :=
  (List.range (2 * osz - 1)).map fun i =>
    if i < osz then { count := counts.getD i 0 } else default

/-- State of the merge loop: the tree and the two cursors `leaf`, `node`. -/
structure BState where
  t : List HNode
  leaf : Int
  node : Int

/-- One evaluation of the inner `j`-loop body (lines 237-243): pick the
lower-weight item among the next unmerged leaf and the next unassigned
internal node.  Returns the picked index and the advanced cursors. -/
def chooseMini (t : List HNode) (leaf node : Int) : Int × Int × Int :=
  if 0 ≤ leaf ∧ (nget t leaf).count < (nget t node).count
  then (leaf, leaf - 1, node)
  else (node, leaf, node + 1)

/-- One iteration of the merge loop (lines 235-250) creating internal node
`i`: choose `mini[0]`, `mini[1]`, link them as `left`/`right`, store the
summed count, set both children's parent and mark `mini[1]` as the right
child (`binary = true`).  The write order follows the source. -/
def mergeStep (s : BState) (i : ℕ) : BState :=
  let c1 := chooseMini s.t s.leaf s.node
  let m0 := c1.1
  let c2 := chooseMini s.t c1.2.1 c1.2.2
  let m1 := c2.1
  let t1 := nset s.t i fun nd => { nd with left := m0 }
  let t2 := nset t1 i fun nd => { nd with right := m1 }
  let c := (nget t2 m0).count + (nget t2 m1).count
  let t3 := nset t2 i fun nd => { nd with count := c }
  let t4 := nset t3 m0 fun nd => { nd with parent := i }
  let t5 := nset t4 m1 fun nd => { nd with parent := i }
  let t6 := nset t5 m1 fun nd => { nd with binary := true }
  ⟨t6, c2.2.1, c2.2.2⟩

/-- The merge loop `for (i = osz; i < 2*osz-1; i++)` as a fold. -/
def buildState (osz : ℕ) (counts : List Int) : BState :=
  (List.range' osz (osz - 1)).foldl mergeStep
    ⟨initTree osz counts, (osz : Int) - 1, (osz : Int)⟩

/-- The node array produced by `buildTree`. -/
def buildNodes (osz : ℕ) (counts : List Int) : List HNode :=
  (buildState osz counts).t

/-- The `while (tree[j].parent != -1)` walk of lines 255-259, with explicit
fuel: collects `tree[j].parent - osz` into `path` and `tree[j].binary` into
`code`, then moves to the parent. -/
def pathCodeAux (t : List HNode) (osz : ℕ) : ℕ → Int → List Int × List Bool
  | 0, _ => ([], [])
  | fuel + 1, j =>
    let nd := nget t j
    if nd.parent = -1 then ([], [])
    else
      let pc := pathCodeAux t osz fuel nd.parent
      ((nd.parent - osz) :: pc.1, nd.binary :: pc.2)

/-- `paths[c]` for class `c` (leaf-to-root order, as stored). -/
def huffPath (osz : ℕ) (counts : List Int) (c : ℕ) : List Int :=
  (pathCodeAux (buildNodes osz counts) osz (2 * osz) c).1

/-- `codes[c]` for class `c` (leaf-to-root order, as stored). -/
def huffCode (osz : ℕ) (counts : List Int) (c : ℕ) : List Bool :=
  (pathCodeAux (buildNodes osz counts) osz (2 * osz) c).2

/-- Descend the tree from `start` following a root-to-leaf list of bits:
bit `true` goes to the right child, `false` to the left child. -/
def descend (t : List HNode) (start : Int) (code : List Bool) : Int :=
  code.foldl (fun j b => if b then (nget t j).right else (nget t j).left) start

/-- Number of leaves (`left == -1 && right == -1`, the test used by `dfs`)
reachable from `j`, with fuel. -/
def leavesUnder (t : List HNode) : ℕ → Int → ℕ
  | 0, _ => 0
  | fuel + 1, j =>
    let nd := nget t j
    if nd.left = -1 ∧ nd.right = -1 then 1
    else leavesUnder t fuel nd.left + leavesUnder t fuel nd.right

/-! ## Configuration (`args.loss`, `args.model` from args.h) -/

/-- `loss_name`: the configured objective (`args.loss`). -/
inductive LossName | ns | hs | softmax
deriving DecidableEq

/-- `model_name`: the configured model (`args.model`); only `sup` is
distinguished by `Model::update`. -/
inductive ModelName | cbow | sg | sup
deriving DecidableEq

/-! ## Linear-algebra primitives (matrix.cc / vector.cc, external per spec §2)

Rows and vectors are modelled as functions `ℕ → K`; a matrix is its row
function `ℕ → ℕ → K`.  `dotRow` is a dot product over the `hsz` hidden
dimensions, `addRow` is scaled row accumulation. -/

section Linalg

variable {K : Type*} [LinearOrderedField K]

/-- `Matrix::dotRow(vec, i)` restricted to the vector level: the dot product
of two `n`-dimensional rows. -/
def dotN (n : ℕ) (v w : ℕ → K) : K := ∑ j in Finset.range n, v j * w j

/-- `wo_.dotRow(hidden_, i)` with an `Int` row index as used by `dfs`
(`node - osz_`); out-of-range rows give 0. -/
def dotRowI (hsz : ℕ) (wo : ℕ → ℕ → K) (hidden : ℕ → K) (i : Int) : K :=
  if 0 ≤ i then dotN hsz (wo i.toNat) hidden else 0

/-- The accumulation loop of `computeHidden`/`update`:
`for it in input: hidden_.addRow(wi_, *it)` starting from `hidden_.zero()`. -/
def accRows (wi : ℕ → ℕ → K) (input : List ℕ) : ℕ → K :=
  input.foldl (fun v i => fun j => v j + wi i j) fun _ => 0

/-- `Model::computeHidden` (lines 98-104): zero, accumulate the selected
input rows, then `hidden_.mul(1.0 / input.size())`.  With an empty input bag
the scale factor is a division by zero (`1.0 / 0`); the embedding makes that
explicit by returning `none` in exactly that case. -/
def computeHidden (wi : ℕ → ℕ → K) (input : List ℕ) : Option (ℕ → K) :=
  if input.length = 0 then none
  else some fun j => accRows wi input j * (1 / (input.length : K))

end Linalg

/-! ## Bounded min-heap (`std::push_heap`/`pop_heap`/`sort_heap` with
`comparePairs`, modelled as an ascending-by-score sorted list) -/

section Heap

variable {K : Type*} [LinearOrderedField K]

instance scoreRelDec : DecidableRel (fun a b : K × Int => a.1 ≤ b.1) :=
  fun a b => inferInstanceAs (Decidable (a.1 ≤ b.1))

instance scoreRelTotal : IsTotal (K × Int) (fun a b => a.1 ≤ b.1) :=
  ⟨fun a b => le_total a.1 b.1⟩

instance scoreRelTrans : IsTrans (K × Int) (fun a b => a.1 ≤ b.1) :=
  ⟨fun _ _ _ h1 h2 => le_trans h1 h2⟩

/-- `heap.push_back(x); push_heap(...)`: insert keeping ascending scores. -/
def heapPush (x : K × Int) (h : List (K × Int)) : List (K × Int) :=
  h.orderedInsert (fun a b => a.1 ≤ b.1) x

/-- The body of the `findKBest` scan (lines 126-136) for one candidate:
skip when the heap is full and the score is below the current minimum,
else insert and, when the heap exceeds `k`, drop the minimum
(`pop_heap` + `pop_back`). -/
def kbStep (k : ℕ) (heap : List (K × Int)) (si : K × Int) : List (K × Int) :=
  if heap.length = k ∧ si.1 < (heap.headD (0, 0)).1 then heap
  else
    let h := heapPush si heap
    if k < h.length then h.tail else h

/-- `Model::findKBest` (lines 125-137): scan all `osz` output scores. -/
def findKBest (k osz : ℕ) (output : ℕ → K) : List (K × Int) :=
  (List.range osz).foldl (fun h i => kbStep k h (output i, (i : Int))) []

/-- `Model::dfs` (lines 139-158), with fuel.  `fv node` is the value
`f = sigmoid(wo_.dotRow(hidden_, node - osz_))` at internal node `node` and
`lg` is `utils::log`; the traversal adds `lg (1 - f)` going left and `lg f`
going right, prunes full-heap subtrees below the current minimum, and pushes
`(score, node)` at leaves (`left == -1 && right == -1`). -/
def dfs (t : List HNode) (fv : Int → K) (lg : K → K) (k : ℕ) :
    ℕ → Int → K → List (K × Int) → List (K × Int)
  | 0, _, _, heap => heap
  | fuel + 1, node, score, heap =>
    if heap.length = k ∧ score < (heap.headD (0, 0)).1 then heap
    else if (nget t node).left = -1 ∧ (nget t node).right = -1 then
      let h := heapPush (score, node) heap
      if k < h.length then h.tail else h
    else
      let f := fv node
      let h1 := dfs t fv lg k fuel (nget t node).left (score + lg (1 - f)) heap
      dfs t fv lg k fuel (nget t node).right (score + lg f) h1

/-- `Model::predict` (lines 111-123): compute the hidden vector, then either
DFS from the tree root `2*osz - 2` (hierarchical softmax) or a heap scan of
the dense score vector, and finally `sort_heap` (descending scores, here the
reverse of the ascending heap list).  `sig` and `lg` model `utils::sigmoid`
and `utils::log`. -/
def predict (loss : LossName) (t : List HNode) (wi wo : ℕ → ℕ → K)
    (hsz osz : ℕ) (sig lg : K → K) (input : List ℕ) (k : ℕ) :
    Option (List (K × Int)) :=
  match computeHidden wi input with
  | none => none
  | some hidden =>
    some
      ((if loss = LossName.hs then
          dfs t (fun node => sig (dotRowI hsz wo hidden (node - osz))) lg k
            (2 * osz) (2 * (osz : Int) - 2) 0 []
        else
          findKBest k osz fun i => dotN hsz (wo i) hidden).reverse)

end Heap

/-! ## Negative draws (`Model::getNegative`, lines 212-219) -/

/-- The `do { negative = negatives[negpos]; negpos = (negpos+1) % size; }
while (target == negative)` retry loop, with fuel: one lap over the table
suffices whenever it can terminate at all. -/
def getNegativeAux (negs : List ℕ) (target : ℕ) : ℕ → ℕ → Option (ℕ × ℕ)
  | 0, _ => none
  | fuel + 1, pos =>
    let v := negs.getD pos 0
    let pos2 := (pos + 1) % negs.length
    if v = target then getNegativeAux negs target fuel pos2 else some (v, pos2)

/-! ## Scoring strategies and the trainer (`Model::update`) -/

section Trainer

variable {K : Type*} [LinearOrderedField K]

/-- Static model configuration: dimensions, the negative-sampling table, the
per-class Huffman paths/codes, the external transcendental functions
(`utils::sigmoid`, `utils::log`, `exp`) and the `args`/learning-rate values
read by the scoring strategies. -/
structure MCfg (K : Type*) where
  hsz : ℕ
  osz : ℕ
  negs : List ℕ
  paths : List (List ℕ)
  codes : List (List Bool)
  sig : K → K
  lg : K → K
  expf : K → K
  lossN : LossName
  neg : ℕ
  modelN : ModelName
  lr : K

/-- The state `update` mutates and the claims observe: the input embedding
table `wi_`, the output weight table `wo_` and the sampling cursor `negpos`. -/
structure MState (K : Type*) where
  wi : ℕ → ℕ → K
  wo : ℕ → ℕ → K
  negpos : ℕ

/-- `Model::binaryLogistic` (lines 41-51) acting on an accumulator
`(loss, grad_, wo_)`: score through the sigmoid, update the gradient
accumulator from the old output row, update the output row from the hidden
vector, and add `-log score` (label true) or `-log (1 - score)` to the loss. -/
def binaryLogistic (cfg : MCfg K) (hidden : ℕ → K)
    (st : K × (ℕ → K) × (ℕ → ℕ → K)) (target : ℕ) (label : Bool) :
    K × (ℕ → K) × (ℕ → ℕ → K) :=
  let score := cfg.sig (dotN cfg.hsz (st.2.2 target) hidden)
  let alpha := cfg.lr * ((if label then 1 else 0) - score)
  (st.1 + (if label then -cfg.lg score else -cfg.lg (1 - score)),
   fun j => st.2.1 j + alpha * st.2.2 target j,
   fun r j => if r = target then st.2.2 r j + alpha * hidden j else st.2.2 r j)

/-- `Model::negativeSampling` (lines 53-64): zero the gradient, one positive
binary step on the target, then `args.neg` negative steps on draws from the
table (threading the cursor); `none` exactly when some draw cannot
terminate. -/
def negativeSampling (cfg : MCfg K) (hidden : ℕ → K) (wo : ℕ → ℕ → K)
    (negpos target : ℕ) : Option (K × (ℕ → K) × (ℕ → ℕ → K) × ℕ) :=
  (List.range (cfg.neg + 1)).foldl
    (fun acc n =>
      acc.bind fun s =>
        if n = 0 then
          let r := binaryLogistic cfg hidden (s.1, s.2.1, s.2.2.1) target true
          some (r.1, r.2.1, r.2.2, s.2.2.2)
        else
          (getNegativeAux cfg.negs target cfg.negs.length s.2.2.2).map fun vn =>
            let r := binaryLogistic cfg hidden (s.1, s.2.1, s.2.2.1) vn.1 false
            (r.1, r.2.1, r.2.2, vn.2))
    (some (0, (fun _ => 0), wo, negpos))

/-- `Model::hierarchicalSoftmax` (lines 66-75): zero the gradient, then one
binary step per (path entry, code bit) of the target class. -/
def hierarchicalSoftmax (cfg : MCfg K) (hidden : ℕ → K) (wo : ℕ → ℕ → K)
    (target : ℕ) : K × (ℕ → K) × (ℕ → ℕ → K) :=
  ((cfg.paths.getD target []).zip (cfg.codes.getD target [])).foldl
    (fun s pb => binaryLogistic cfg hidden s pb.1 pb.2)
    (0, (fun _ => 0), wo)

/-- The running-maximum loop of `Model::softmax` (lines 80-83), starting
from `output_[0]`. -/
def maxScoreL (osz : ℕ) (s : ℕ → K) : K :=
  (List.range osz).foldl (fun m i => max (s i) m) (s 0)

/-- `Model::softmax` (lines 77-96) in a generic field, with `expf` standing
for `exp`: scores by matrix-vector product, max subtraction, normalization
to `prob`, then per class `i` the update with `alpha = lr * (label - prob i)`
into the gradient accumulator (from the old rows) and into row `i`. -/
def softmaxStep (cfg : MCfg K) (hidden : ℕ → K) (wo : ℕ → ℕ → K)
    (target : ℕ) : K × (ℕ → K) × (ℕ → ℕ → K) :=
  let out0 := fun i => dotN cfg.hsz (wo i) hidden
  let mx := maxScoreL cfg.osz out0
  let out1 := fun i => cfg.expf (out0 i - mx)
  let z := ∑ i in Finset.range cfg.osz, out1 i
  let prob := fun i => out1 i / z
  let alpha := fun i => cfg.lr * ((if i = target then 1 else 0) - prob i)
  (-cfg.lg (prob target),
   fun j => ∑ i in Finset.range cfg.osz, alpha i * wo i j,
   fun r j => if r < cfg.osz then wo r j + alpha r * hidden j else wo r j)

/-- The strategy dispatch of `update` (lines 170-177); the result carries
`(loss, grad_, wo_, negpos)`. -/
def runLoss (cfg : MCfg K) (st : MState K) (hidden : ℕ → K) (target : ℕ) :
    Option (K × (ℕ → K) × (ℕ → ℕ → K) × ℕ) :=
  match cfg.lossN with
  | .ns => negativeSampling cfg hidden st.wo st.negpos target
  | .hs =>
    let r := hierarchicalSoftmax cfg hidden st.wo target
    some (r.1, r.2.1, r.2.2, st.negpos)
  | .softmax =>
    let r := softmaxStep cfg hidden st.wo target
    some (r.1, r.2.1, r.2.2, st.negpos)

/-- `Model::update` (lines 160-186): return `0.0` untouched on an empty
input bag; otherwise compute the hidden mean, dispatch the strategy,
rescale the gradient accumulator by `1 / input.size()` exactly when
`args.model == model_name::sup`, and add the (possibly rescaled) gradient
to every selected input row. -/
def update (cfg : MCfg K) (st : MState K) (input : List ℕ) (target : ℕ) :
    Option (K × MState K) :=
  if input.length = 0 then some (0, st)
  else
    let hidden := fun j => accRows st.wi input j * (1 / (input.length : K))
    (runLoss cfg st hidden target).map fun r =>
      let g := if cfg.modelN = ModelName.sup
               then fun j => r.2.1 j * (1 / (input.length : K))
               else r.2.1
      let wi2 := input.foldl
        (fun m id => fun rr j => if rr = id then m rr j + g j else m rr j) st.wi
      (r.1, ⟨wi2, r.2.2.1, r.2.2.2⟩)

end Trainer

/-! ## Full softmax over ℝ (`Model::softmax`, lines 77-96)

The probability distribution computed by the third loop of `softmax`
(max-subtraction, exponentiation, normalization), with the genuine
exponential. -/

/-- `output_[i] = exp(output_[i] - max)` renormalized: the probability the
full-softmax strategy assigns to class `i` given raw scores `s`. -/
noncomputable def softmaxProb (osz : ℕ) (s : ℕ → ℝ) (i : ℕ) : ℝ :=
  Real.exp (s i - maxScoreL osz s) /
    ∑ j in Finset.range osz, Real.exp (s j - maxScoreL osz s)

/-- `return -utils::log(output_[target])`. -/
noncomputable def softmaxLoss (osz : ℕ) (s : ℕ → ℝ) (target : ℕ) : ℝ :=
  -Real.log (softmaxProb osz s target)

/-- The raw score vector `output_.mul(wo_, hidden_)`. -/
noncomputable def rawOutput (hsz : ℕ) (wo : ℕ → ℕ → ℝ) (hidden : ℕ → ℝ) (i : ℕ) : ℝ :=
  dotN hsz (wo i) hidden

/-! ## Negative sampling table builder (`Model::initTableNegatives`,
lines 198-210) -/

/-- Modelled from the spec: `NEGATIVE_TABLE_SIZE` is declared in `model.h`,
which is not part of the sources; the spec describes it only as the
"configured constant capacity" of the table.  The upstream constant is
`10000000`; the general theorems below are stated for an arbitrary
capacity. -/
def NEGATIVE_TABLE_SIZE : ℕ := 10000000

/-- The number of copies of class `i` appended by
`for (j = 0; j < c * NEGATIVE_TABLE_SIZE / z; j++)` with
`c = pow(counts[i], 0.5)` and `z = Σ pow(counts[i], 0.5)`: the number of
naturals `j` with `(j : ℝ) < c * tbl / z`, i.e. `⌈c * tbl / z⌉₊`
(see `negCopies_char`). -/
noncomputable def negCopies (counts : List Int) (tbl : ℕ) (i : ℕ) : ℕ :=
  let z := ∑ j in Finset.range counts.length, Real.sqrt (counts.getD j 0 : ℝ)
  ⌈Real.sqrt (counts.getD i 0 : ℝ) * tbl / z⌉₊

/-- The `negatives` table before the final `std::shuffle`.  The shuffle is a
permutation by a seeded generator owned by the model; it preserves length
and multiset of entries, which is all the claims below observe. -/
noncomputable def negTable (counts : List Int) (tbl : ℕ) : List ℕ :=
  (List.range counts.length).flatMap fun i => List.replicate (negCopies counts tbl i) i

/-! ## Invariants of the merge loop

`Consumed`, `BInv` and `TreeWF` are the loop invariant of the two-cursor
merge (lines 235-250) and the structure it guarantees for the finished
tree; `BInv osz counts s i` holds before the iteration that constructs
internal node `i`. -/

/-- Node `k` has already been linked below some internal node: either it is
a leaf the `leaf` cursor has moved past, or an internal node the `node`
cursor has moved past. -/
def Consumed (osz : ℕ) (s : BState) (k : ℕ) : Prop :=
  (s.leaf < (k : Int) ∧ k < osz) ∨ ((osz : ℕ) ≤ k ∧ (k : Int) < s.node)

/-- The merge-loop invariant.  `counts` is the frequency table, `osz` the
class count, `i` the next internal node to construct. -/
structure BInv (osz : ℕ) (counts : List Int) (s : BState) (i : ℕ) : Prop where
  hlen : s.t.length = 2 * osz - 1
  hleaf_lb : -1 ≤ s.leaf
  hleaf_ub : s.leaf < (osz : Int)
  hnode_lb : (osz : Int) ≤ s.node
  hnode_ub : s.node ≤ (i : Int)
  hnode_ub' : osz < i → s.node ≤ (i : Int) - 1
  hsize : s.leaf + 1 + ((i : Int) - s.node) = 2 * (osz : Int) - (i : Int)
  hfresh : ∀ k : ℕ, (k : Int) ≤ s.leaf →
    nget s.t k = { parent := -1, left := -1, right := -1,
                   count := counts.getD k 0, binary := false }
  hleafrec : ∀ k : ℕ, k < osz →
    (nget s.t k).left = -1 ∧ (nget s.t k).right = -1 ∧
    (nget s.t k).count = counts.getD k 0
  hsent : ∀ k : ℕ, i ≤ k → k < 2 * osz - 1 → nget s.t k = default
  hbuilt : ∀ k : ℕ, osz ≤ k → k < i →
    ∃ a b : ℕ, (nget s.t k).left = (a : Int) ∧ (nget s.t k).right = (b : Int) ∧
      a < k ∧ b < k ∧ a ≠ b ∧
      (nget s.t k).count = (nget s.t (a : Int)).count + (nget s.t (b : Int)).count
  hroot : ∀ k : ℕ, s.node ≤ (k : Int) → k < i →
    (nget s.t k).parent = -1 ∧ (nget s.t k).binary = false
  hcons : ∀ k : ℕ, k < i → Consumed osz s k →
    (osz : Int) ≤ (nget s.t k).parent ∧ (k : Int) < (nget s.t k).parent ∧
    (nget s.t k).parent < (i : Int) ∧
    (if (nget s.t k).binary
     then (nget s.t ((nget s.t k).parent)).right = (k : Int)
     else (nget s.t ((nget s.t k).parent)).left = (k : Int))
  hcount : (s.leaf + 1).toNat +
    ((List.range' s.node.toNat (i - s.node.toNat)).map
      (fun k : ℕ => leavesUnder s.t (2 * osz) (k : Int))).sum = osz

/-- The structure `buildTree` guarantees for the finished tree when all
counts are below the `1e15` sentinel. -/
structure TreeWF (osz : ℕ) (t : List HNode) : Prop where
  hlen : t.length = 2 * osz - 1
  hleaf : ∀ k : ℕ, k < osz →
    (nget t k).left = -1 ∧ (nget t k).right = -1
  hbuilt : ∀ k : ℕ, osz ≤ k → k < 2 * osz - 1 →
    ∃ a b : ℕ, (nget t k).left = (a : Int) ∧ (nget t k).right = (b : Int) ∧
      a < k ∧ b < k ∧ a ≠ b ∧
      (nget t k).count = (nget t (a : Int)).count + (nget t (b : Int)).count
  hrootp : (nget t (2 * (osz : Int) - 2)).parent = -1
  hcons : ∀ k : ℕ, k < 2 * osz - 1 → k ≠ 2 * osz - 2 →
    (osz : Int) ≤ (nget t k).parent ∧ (k : Int) < (nget t k).parent ∧
    (nget t k).parent < 2 * (osz : Int) - 1 ∧
    (if (nget t k).binary
     then (nget t ((nget t k).parent)).right = (k : Int)
     else (nget t ((nget t k).parent)).left = (k : Int))
  hlu : leavesUnder t (2 * osz) (2 * (osz : Int) - 2) = osz

/-- Children of every node strictly below `bound` point strictly below the
node (and leaves have none): the shape `leavesUnder` recursion relies on. -/
def ChildDec (bound : ℕ) (t : List HNode) : Prop :=
  ∀ k : ℕ, k < bound →
    ((nget t (k : Int)).left = -1 ∧ (nget t (k : Int)).right = -1) ∨
    (∃ a b : ℕ, (nget t (k : Int)).left = (a : Int) ∧
      (nget t (k : Int)).right = (b : Int) ∧ a < k ∧ b < k)

/-! # Theorems -/

/-! ## The `nget`/`nset` algebra -/

theorem nset_length (t : List HNode) (i : Int) (f : HNode → HNode) :
    (nset t i f).length = t.length := by
  unfold nset; split <;> simp

theorem nget_nset_same (t : List HNode) (i : Int) (f : HNode → HNode)
    (h0 : 0 ≤ i) (hl : i.toNat < t.length) :
    nget (nset t i f) i = f (nget t i) := by
  unfold nget nset
  rw [if_neg (by omega), if_neg (by omega), List.getD_eq_getElem?_getD,
    List.getElem?_set_self (by simpa using hl), Option.getD_some]
  rw [show (if i < 0 then default else t.getD i.toNat default) = nget t i from
    (by rw [nget, if_neg (by omega)] : nget t i = _).symm]

theorem nget_nset_ne (t : List HNode) (i j : Int) (f : HNode → HNode)
    (hij : i ≠ j) : nget (nset t i f) j = nget t j := by
  unfold nget nset
  by_cases hi : i < 0
  · rw [if_pos hi]
  · rw [if_neg hi]
    by_cases hj : j < 0
    · rw [if_pos hj, if_pos hj]
    · rw [if_neg hj, if_neg hj, List.getD_eq_getElem?_getD,
        List.getD_eq_getElem?_getD, List.getElem?_set_ne (by omega)]

/-! ## Claim C7: `update` on an empty input bag -/

/-- Claim C7: for every valid target, `update` with an empty input sequence
returns exactly `0.0` and leaves the input embedding table, the output
weight table and the negative-sampling cursor unchanged (the guard at line
163 returns before any state is touched). -/
theorem update_empty_noop {K : Type*} [LinearOrderedField K]
    (cfg : MCfg K) (st : MState K) (target : ℕ) :
    update cfg st [] target = some (0, st) := rfl

/-! ## Claim C10: `predict` on an empty input bag -/

/-- Claim C10: `predict` with an empty input bag reaches the unguarded
division by zero in `computeHidden` (the scale `1.0 / input.size()` with
size 0, modelled as `none`) before any scoring or ranking happens, while
the empty-bag guard exists only in `update`, which returns `0.0` with the
state untouched. -/
theorem predict_empty_div_zero {K : Type*} [LinearOrderedField K]
    (loss : LossName) (t : List HNode) (wi wo : ℕ → ℕ → K) (hsz osz : ℕ)
    (sig lg : K → K) (k : ℕ) (cfg : MCfg K) (st : MState K) (target : ℕ) :
    computeHidden wi ([] : List ℕ) = none ∧
    predict loss t wi wo hsz osz sig lg [] k = none ∧
    update cfg st [] target = some (0, st) :=
  ⟨rfl, rfl, rfl⟩

/-! ## Claim C9: the end-to-end tree scenario for frequencies [1,1,2,4] -/

/-- Counterexample to claim C9: on the ascending table `[1,1,2,4]` the
two-cursor merge starts consuming at the highest index (the *largest*
count), so all four classes end with code length 2 and class 3 does not get
a strictly shortest code. -/
theorem buildTree_1124_all_codes_len2 :
    (huffCode 4 [1, 1, 2, 4] 3).length = 2 ∧
    (huffCode 4 [1, 1, 2, 4] 0).length = 2 ∧
    (huffCode 4 [1, 1, 2, 4] 1).length = 2 ∧
    (huffCode 4 [1, 1, 2, 4] 2).length = 2 := by decide

/-- Claim C9 amended: the merge loop expects the frequency table sorted in
non-increasing order (most frequent first, as the dictionary hands it over).
For the 4-class table `[4,2,1,1]` the tree gives class 0 (weight 4) the
strictly shortest code and classes 2 and 3 (weight 1) the longest codes. -/
theorem buildTree_4211_code_lengths :
    (huffCode 4 [4, 2, 1, 1] 0).length = 1 ∧
    (huffCode 4 [4, 2, 1, 1] 1).length = 2 ∧
    (huffCode 4 [4, 2, 1, 1] 2).length = 3 ∧
    (huffCode 4 [4, 2, 1, 1] 3).length = 3 := by decide

/-! ## Claims C1/C2, counterexamples: counts at the `1e15` sentinel -/

/-- Counterexample to claim C1: for the sorted table `[10^15, 10^15]` the
leaf counts are not below the `1e15` sentinel the builder uses as
"unconstructed" weight, so the comparison at line 238 picks the internal
node slot being built: node 2 becomes its own left child and its right
child is the out-of-range index 3.  The conjunct "every internal node has
exactly two children (among the `2C-1` nodes) whose weights sum to its own
weight" fails. -/
theorem buildTree_sentinel_break :
    ¬ ((buildNodes 2 [10 ^ 15, 10 ^ 15]).length = 2 * 2 - 1 ∧
       (∀ c, c < 2 → (huffPath 2 [10 ^ 15, 10 ^ 15] c).length =
          (huffCode 2 [10 ^ 15, 10 ^ 15] c).length) ∧
       (∀ k : ℕ, 2 ≤ k → k < 2 * 2 - 1 →
          ∃ a : Fin (2 * 2 - 1), ∃ b : Fin (2 * 2 - 1),
            (nget (buildNodes 2 [10 ^ 15, 10 ^ 15]) k).left = (a : ℕ) ∧
            (nget (buildNodes 2 [10 ^ 15, 10 ^ 15]) k).right = (b : ℕ) ∧
            (nget (buildNodes 2 [10 ^ 15, 10 ^ 15]) (a : ℕ)).count +
              (nget (buildNodes 2 [10 ^ 15, 10 ^ 15]) (b : ℕ)).count =
              (nget (buildNodes 2 [10 ^ 15, 10 ^ 15]) k).count)) := by decide

/-- Counterexample to claim C2: for the same sorted table `[10^15, 10^15]`
classes 0 and 1 are never merged, so their parent stays `-1`, their code is
empty, and descending from the root `2*C - 2 = 2` reconstructs node 2, not
leaf 0. -/
theorem descend_sentinel_break :
    descend (buildNodes 2 [10 ^ 15, 10 ^ 15]) (2 * 2 - 2)
      ((huffCode 2 [10 ^ 15, 10 ^ 15] 0).reverse) ≠ 0 := by decide

/-! ## Claim C6: `getNegative` (lines 212-219) -/

/-- Helper: when every in-range table entry equals the excluded target, the
retry loop never exits, whatever the fuel. -/
theorem getNegativeAux_none (negs : List ℕ) (target : ℕ)
    (hall : ∀ i, i < negs.length → negs.getD i 0 = target) :
    ∀ fuel q, q < negs.length → getNegativeAux negs target fuel q = none := by
  intro fuel
  induction fuel with
  | zero => intro q _; rfl
  | succ f ih =>
    intro q hq
    have hv : negs.getD q 0 = target := hall q hq
    simp only [getNegativeAux]
    rw [if_pos hv]
    exact ih _ (Nat.mod_lt _ (by omega))

/-- Helper: if the first `d` entries after the cursor (cyclically) equal the
target and the next one does not, then with more than `d` units of fuel the
loop returns that entry and leaves the cursor one step past it. -/
theorem getNegativeAux_term (negs : List ℕ) (target : ℕ) :
    ∀ d pos fuel, pos < negs.length → d < fuel →
      (∀ j, j < d → negs.getD ((pos + j) % negs.length) 0 = target) →
      negs.getD ((pos + d) % negs.length) 0 ≠ target →
      getNegativeAux negs target fuel pos =
        some (negs.getD ((pos + d) % negs.length) 0,
          (pos + d + 1) % negs.length) := by
  intro d
  induction d with
  | zero =>
    intro pos fuel hpos hf _ hne
    obtain ⟨f, rfl⟩ : ∃ f, fuel = f + 1 := ⟨fuel - 1, by omega⟩
    have hmod : (pos + 0) % negs.length = pos := by
      simpa using Nat.mod_eq_of_lt hpos
    rw [hmod] at hne ⊢
    simp only [getNegativeAux]
    rw [if_neg hne]
  | succ d ih =>
    intro pos fuel hpos hf hall hne
    obtain ⟨f, rfl⟩ : ∃ f, fuel = f + 1 := ⟨fuel - 1, by omega⟩
    have hlen : 0 < negs.length := by omega
    have hv0 : negs.getD pos 0 = target := by
      have h0 := hall 0 (Nat.succ_pos d)
      simpa [Nat.mod_eq_of_lt hpos] using h0
    simp only [getNegativeAux]
    rw [if_pos hv0]
    have hstep : ∀ a : ℕ, ((pos + 1) % negs.length + a) % negs.length =
        (pos + 1 + a) % negs.length := fun a => Nat.mod_add_mod _ _ _
    have hrec := ih ((pos + 1) % negs.length) f (Nat.mod_lt _ hlen) (by omega)
      (fun j hj => by
        rw [hstep j]
        have := hall (j + 1) (by omega)
        have harith : pos + 1 + j = pos + (j + 1) := by omega
        rwa [harith])
      (by
        rw [hstep d]
        have harith : pos + 1 + d = pos + (d + 1) := by omega
        rwa [harith])
    rw [hrec]
    have e1 : ((pos + 1) % negs.length + d) % negs.length =
        (pos + (d + 1)) % negs.length := by
      rw [hstep d]; congr 1; omega
    have e2 : ((pos + 1) % negs.length + d + 1) % negs.length =
        (pos + (d + 1) + 1) % negs.length := by
      have h3 : (pos + 1) % negs.length + d + 1 =
          (pos + 1) % negs.length + (d + 1) := by omega
      rw [h3, hstep (d + 1)]; congr 1; omega
    rw [e1, e2]

/-- Claim C6: on a non-empty table holding at least one entry different from
the excluded target, the retry loop of `getNegative` terminates within one
lap of fuel, returns an entry different from the target, and advances the
cursor modulo the table length past each rejected entry (and one past the
accepted one); if instead every entry equals the target, the loop never
terminates — `none` for every amount of fuel. -/
theorem getNegative_spec (negs : List ℕ) (target pos : ℕ) :
    ((∃ i, i < negs.length ∧ negs.getD i 0 ≠ target) → pos < negs.length →
      ∃ v pos2 r,
        getNegativeAux negs target negs.length pos = some (v, pos2) ∧
        v ≠ target ∧ v = negs.getD ((pos + r) % negs.length) 0 ∧
        pos2 = (pos + r + 1) % negs.length ∧
        ∀ j, j < r → negs.getD ((pos + j) % negs.length) 0 = target) ∧
    ((∀ i, i < negs.length → negs.getD i 0 = target) →
      ∀ fuel q, q < negs.length → getNegativeAux negs target fuel q = none) := by
  constructor
  · rintro ⟨i, hi, hine⟩ hpos
    have hlen : 0 < negs.length := by omega
    have hwit : negs.getD
        ((pos + (i + negs.length - pos) % negs.length) % negs.length) 0 ≠ target := by
      have h1 : (pos + (i + negs.length - pos) % negs.length) % negs.length
          = (pos + (i + negs.length - pos)) % negs.length := Nat.add_mod_mod _ _ _
      have h2 : pos + (i + negs.length - pos) = i + negs.length := by omega
      have h3 : (i + negs.length) % negs.length = i := by
        rw [Nat.add_mod_right]; exact Nat.mod_eq_of_lt hi
      rw [h1, h2, h3]; exact hine
    have hP : ∃ j, negs.getD ((pos + j) % negs.length) 0 ≠ target :=
      ⟨(i + negs.length - pos) % negs.length, hwit⟩
    have hd := Nat.find_spec hP
    have hmin : ∀ j, j < Nat.find hP →
        negs.getD ((pos + j) % negs.length) 0 = target :=
      fun j hj => of_not_not (Nat.find_min hP hj)
    have hdlt : Nat.find hP < negs.length :=
      lt_of_le_of_lt (Nat.find_min' hP hwit) (Nat.mod_lt _ hlen)
    exact ⟨_, _, Nat.find hP,
      getNegativeAux_term negs target (Nat.find hP) pos negs.length hpos hdlt hmin hd,
      hd, rfl, rfl, hmin⟩
  · exact getNegativeAux_none negs target

/-- Witness for `getNegative_spec`: table `[0, 1]`, excluded target `0`,
cursor `0`; the hypotheses of the first implication hold concretely. -/
theorem getNegative_spec_witness :
    (∃ i, i < ([0, 1] : List ℕ).length ∧ ([0, 1] : List ℕ).getD i 0 ≠ 0) ∧
    (∃ v pos2 r,
        getNegativeAux [0, 1] 0 ([0, 1] : List ℕ).length 0 = some (v, pos2) ∧
        v ≠ 0 ∧ v = ([0, 1] : List ℕ).getD ((0 + r) % ([0, 1] : List ℕ).length) 0 ∧
        pos2 = (0 + r + 1) % ([0, 1] : List ℕ).length ∧
        ∀ j, j < r → ([0, 1] : List ℕ).getD ((0 + j) % ([0, 1] : List ℕ).length) 0 = 0) :=
  ⟨⟨1, by decide, by decide⟩,
   (getNegative_spec [0, 1] 0 0).1 ⟨1, by decide, by decide⟩ (by decide)⟩

/-! ## Claim C4: the full-softmax distribution (lines 77-96) -/

/-- Folding `max` commutes with adding a constant to every candidate. -/
theorem foldl_max_add (s : ℕ → ℝ) (c : ℝ) :
    ∀ (l : List ℕ) (a : ℝ),
      l.foldl (fun m i => max (s i + c) m) (a + c) =
        l.foldl (fun m i => max (s i) m) a + c := by
  intro l
  induction l with
  | nil => intro a; rfl
  | cons x xs ih =>
    intro a
    simp only [List.foldl_cons]
    rw [show max (s x + c) (a + c) = max (s x) a + c from max_add_add_right .., ih]

/-- The running maximum of lines 80-83 shifts with the scores. -/
theorem maxScoreL_add (osz : ℕ) (s : ℕ → ℝ) (c : ℝ) :
    maxScoreL osz (fun i => s i + c) = maxScoreL osz s + c :=
  foldl_max_add s c (List.range osz) (s 0)

/-- The probabilities of `softmax` sum to 1. -/
theorem softmaxProb_sum (osz : ℕ) (hosz : 0 < osz) (s : ℕ → ℝ) :
    ∑ i in Finset.range osz, softmaxProb osz s i = 1 := by
  have hz : 0 < ∑ j in Finset.range osz, Real.exp (s j - maxScoreL osz s) :=
    Finset.sum_pos (fun j _ => Real.exp_pos _) ⟨0, Finset.mem_range.mpr hosz⟩
  unfold softmaxProb
  rw [← Finset.sum_div, div_self (ne_of_gt hz)]

/-- The distribution is invariant under adding a constant to every raw
score (the max shifts along, so every exponent is unchanged). -/
theorem softmaxProb_shift (osz : ℕ) (s : ℕ → ℝ) (c : ℝ) (i : ℕ) :
    softmaxProb osz (fun j => s j + c) i = softmaxProb osz s i := by
  unfold softmaxProb
  rw [maxScoreL_add]
  have h : ∀ j, s j + c - (maxScoreL osz s + c) = s j - maxScoreL osz s :=
    fun j => by ring
  simp only [h]

/-- Claim C4: for every hidden vector, the probabilities `softmax` computes
from the raw scores `output_ = wo_ * hidden_` (max-subtracted, exponentiated
and normalized) sum to 1, and both the distribution and the loss
`-ln(prob target)` are invariant under adding one constant to every raw
score. -/
theorem softmax_distribution (osz hsz : ℕ) (hosz : 0 < osz)
    (wo : ℕ → ℕ → ℝ) (hidden : ℕ → ℝ) (c : ℝ) :
    (∑ i in Finset.range osz, softmaxProb osz (rawOutput hsz wo hidden) i) = 1 ∧
    (∀ i, softmaxProb osz (fun i2 => rawOutput hsz wo hidden i2 + c) i =
      softmaxProb osz (rawOutput hsz wo hidden) i) ∧
    (∀ target, softmaxLoss osz (fun i2 => rawOutput hsz wo hidden i2 + c) target =
      softmaxLoss osz (rawOutput hsz wo hidden) target) :=
  ⟨softmaxProb_sum osz hosz _, fun i => softmaxProb_shift osz _ c i,
   fun target => by unfold softmaxLoss; rw [softmaxProb_shift]⟩

/-- Witness for `softmax_distribution`: one class, zero weights, shift 5. -/
theorem softmax_distribution_witness :
    (∑ i in Finset.range 1, softmaxProb 1 (rawOutput 0 (fun _ _ => 0) fun _ => 0) i) = 1 ∧
    (∀ i, softmaxProb 1 (fun i2 => rawOutput 0 (fun _ _ => 0) (fun _ => 0) i2 + 5) i =
      softmaxProb 1 (rawOutput 0 (fun _ _ => 0) fun _ => 0) i) ∧
    (∀ target, softmaxLoss 1 (fun i2 => rawOutput 0 (fun _ _ => 0) (fun _ => 0) i2 + 5) target =
      softmaxLoss 1 (rawOutput 0 (fun _ _ => 0) fun _ => 0) target) :=
  softmax_distribution 1 0 (by norm_num) (fun _ _ => 0) (fun _ => 0) 5

/-! ## Claim C5: `initTableNegatives` (lines 198-210) -/

/-- Bridge between the list-level table and `Finset.range` sums. -/
theorem sum_map_range (f : ℕ → ℕ) (n : ℕ) :
    ((List.range n).map f).sum = ∑ i in Finset.range n, f i := by
  induction n with
  | zero => rfl
  | succ m ih =>
    rw [List.range_succ, List.map_append, List.sum_append, Finset.sum_range_succ, ih]
    simp

/-- The table length is the total number of appended copies. -/
theorem negTable_length (counts : List Int) (tbl : ℕ) :
    (negTable counts tbl).length =
      ∑ i in Finset.range counts.length, negCopies counts tbl i := by
  simp only [negTable, List.length_flatMap, Function.comp_def, List.length_replicate]
  exact sum_map_range _ _

/-- Claim C5 amended: the inner loop `for (j = 0; j < c*TABLE_SIZE/z; j++)`
appends one copy per natural `j` strictly below the real quotient, i.e.
`⌈√freq · T / z⌉₊` copies — rounding *up*, not truncating; consequently for
any table with a positive count the total size is at least the capacity
(so the table is non-empty), and generally exceeds it. -/
theorem initTableNegatives_size (counts : List Int) (tbl : ℕ)
    (hpos : ∃ c ∈ counts, 0 < c) (htbl : 1 ≤ tbl) :
    (∀ i j : ℕ, j < negCopies counts tbl i ↔
      (j : ℝ) < Real.sqrt (counts.getD i 0 : ℝ) * tbl /
        ∑ j2 in Finset.range counts.length, Real.sqrt (counts.getD j2 0 : ℝ)) ∧
    tbl ≤ (negTable counts tbl).length ∧
    negTable counts tbl ≠ [] := by
  obtain ⟨c, hc, hcpos⟩ := hpos
  obtain ⟨i0, hi0, hieq⟩ := List.mem_iff_getElem.mp hc
  have hgd : counts.getD i0 0 = c := by
    rw [List.getD_eq_getElem?_getD, List.getElem?_eq_getElem hi0, Option.getD_some, hieq]
  have hz : 0 < ∑ j2 in Finset.range counts.length,
      Real.sqrt (counts.getD j2 0 : ℝ) := by
    refine Finset.sum_pos' (fun j _ => Real.sqrt_nonneg _)
      ⟨i0, Finset.mem_range.mpr hi0, ?_⟩
    rw [hgd]
    exact Real.sqrt_pos.mpr (by exact_mod_cast hcpos)
  have hchar : ∀ i j : ℕ, j < negCopies counts tbl i ↔
      (j : ℝ) < Real.sqrt (counts.getD i 0 : ℝ) * tbl /
        ∑ j2 in Finset.range counts.length, Real.sqrt (counts.getD j2 0 : ℝ) :=
    fun i j => Nat.lt_ceil
  have hsum : (∑ i in Finset.range counts.length,
      Real.sqrt (counts.getD i 0 : ℝ) * tbl /
        ∑ j2 in Finset.range counts.length, Real.sqrt (counts.getD j2 0 : ℝ)) =
      tbl := by
    rw [← Finset.sum_div, ← Finset.sum_mul]
    exact mul_div_cancel_left₀ _ (ne_of_gt hz)
  have hle : (tbl : ℝ) ≤ ((negTable counts tbl).length : ℝ) := by
    rw [negTable_length, Nat.cast_sum, ← hsum]
    refine Finset.sum_le_sum fun i _ => ?_
    exact Nat.le_ceil _
  have hlen : tbl ≤ (negTable counts tbl).length := by exact_mod_cast hle
  exact ⟨hchar, hlen, by
    have : 0 < (negTable counts tbl).length := by omega
    exact List.length_pos.mp this⟩

/-- Witness for `initTableNegatives_size`: one class of count 1, capacity 1. -/
theorem initTableNegatives_size_witness :
    (∀ i j : ℕ, j < negCopies [1] 1 i ↔
      (j : ℝ) < Real.sqrt ((([1] : List Int).getD i 0 : ℝ)) * ((1 : ℕ) : ℝ) /
        ∑ j2 in Finset.range ([1] : List Int).length,
          Real.sqrt ((([1] : List Int).getD j2 0 : ℝ))) ∧
    1 ≤ (negTable [1] 1).length ∧ negTable [1] 1 ≠ [] :=
  initTableNegatives_size [1] 1 ⟨1, by norm_num, by norm_num⟩ (le_refl 1)

/-- Counterexample to claim C5: for the table `[1, 1, 1]` each class gets
`⌈10^7 / 3⌉ = 3333334` copies (the loop bound is a ceiling, not a truncating
round), so the table holds 10000002 entries, not the configured capacity. -/
theorem negTable_111_size_ne :
    (negTable [1, 1, 1] NEGATIVE_TABLE_SIZE).length = 10000002 ∧
    (negTable [1, 1, 1] NEGATIVE_TABLE_SIZE).length ≠ NEGATIVE_TABLE_SIZE := by
  have hz : (∑ j2 in Finset.range (([1, 1, 1] : List Int)).length,
      Real.sqrt ((([1, 1, 1] : List Int).getD j2 0 : ℝ))) = 3 := by
    norm_num [Finset.sum_range_succ, List.getD_cons_zero, List.getD_cons_succ]
  have hcopy : ∀ i, i < 3 → negCopies [1, 1, 1] NEGATIVE_TABLE_SIZE i = 3333334 := by
    intro i hi
    have hgd : ((([1, 1, 1] : List Int).getD i 0 : ℝ)) = 1 := by
      interval_cases i <;> norm_num [List.getD_cons_zero, List.getD_cons_succ]
    show (⌈Real.sqrt ((([1, 1, 1] : List Int).getD i 0 : ℝ)) * NEGATIVE_TABLE_SIZE /
      ∑ j2 in Finset.range (([1, 1, 1] : List Int)).length,
        Real.sqrt ((([1, 1, 1] : List Int).getD j2 0 : ℝ))⌉₊) = 3333334
    rw [hz, hgd, Real.sqrt_one, Nat.ceil_eq_iff (by norm_num)]
    norm_num [NEGATIVE_TABLE_SIZE]
  have hlen : (negTable [1, 1, 1] NEGATIVE_TABLE_SIZE).length = 10000002 := by
    rw [negTable_length]
    have h3 : ([1, 1, 1] : List Int).length = 3 := rfl
    rw [h3, Finset.sum_congr rfl fun i hi => hcopy i (Finset.mem_range.mp hi)]
    norm_num
  exact ⟨hlen, by rw [hlen]; norm_num [NEGATIVE_TABLE_SIZE]⟩

/-! ## Claim C3, counterexample: tied scores are not strictly descending -/

/-- Counterexample to claim C3: with all-zero weights both classes score 0,
so `predict([0], 2)` returns two pairs with equal scores — descending, but
not *strictly* descending. -/
theorem predict_tied_scores :
    predict (K := ℚ) LossName.ns [] (fun _ _ => 0) (fun _ _ => 0) 1 2 id id [0] 2
      = some [((0 : ℚ), (0 : Int)), (0, 1)] ∧
    ¬ List.Pairwise (fun a b : ℚ × Int => b.1 < a.1)
        [((0 : ℚ), (0 : Int)), (0, 1)] := by
  constructor
  · norm_num [predict, computeHidden, accRows, findKBest, kbStep, heapPush, dotN,
      List.range_succ, Finset.sum_range_succ]
    exact fun h => nomatch h
  · intro h
    exact absurd ((List.pairwise_cons.mp h).1 (0, 1) (by simp)) (by norm_num)

/-! ## Claim C8: gradient rescaling in `update` (lines 179-184) -/

/-- The row-accumulation loop `for it in input: wi_.addRow(grad_, *it, 1.0)`
adds the propagated gradient to row `r` once per occurrence of `r` in the
input bag. -/
theorem foldl_addRow_count {K : Type*} [LinearOrderedField K] (g : ℕ → K) :
    ∀ (input : List ℕ) (m : ℕ → ℕ → K) (r j : ℕ),
      (input.foldl
          (fun m2 id => fun rr j2 => if rr = id then m2 rr j2 + g j2 else m2 rr j2)
          m) r j
        = m r j + (input.count r : K) * g j := by
  intro input
  induction input with
  | nil => intro m r j; simp
  | cons x xs ih =>
    intro m r j
    simp only [List.foldl_cons]
    rw [ih]
    by_cases hx : r = x
    · subst hx
      rw [List.count_cons_self]
      simp only [if_pos rfl]
      push_cast
      ring
    · rw [List.count_cons_of_ne hx]
      simp only [if_neg hx]

/-- Claim C8: for a non-empty input bag, `update` rescales the gradient
accumulator produced by the scoring strategy by `1/|input|` exactly when the
model objective is supervised (`args.model == model_name::sup`), and then
adds the (possibly rescaled) gradient to each selected input row, once per
occurrence; in unsupervised mode the un-rescaled gradient is added. -/
theorem update_grad_rescale {K : Type*} [LinearOrderedField K]
    (cfg : MCfg K) (st : MState K) (input : List ℕ) (target : ℕ)
    (loss : K) (g : ℕ → K) (wo2 : ℕ → ℕ → K) (np2 : ℕ)
    (hne : input ≠ [])
    (hrun : runLoss cfg st
        (fun j => accRows st.wi input j * (1 / (input.length : K))) target
      = some (loss, g, wo2, np2)) :
    ∃ wiN, update cfg st input target = some (loss, ⟨wiN, wo2, np2⟩) ∧
      ∀ r j, wiN r j = st.wi r j + (input.count r : K) *
        (if cfg.modelN = ModelName.sup
         then g j * (1 / (input.length : K)) else g j) := by
  have hlen : ¬ input.length = 0 := fun h => hne (List.length_eq_zero.mp h)
  refine ⟨input.foldl
      (fun m id => fun rr j => if rr = id then
        m rr j + (if cfg.modelN = ModelName.sup
          then fun j2 => g j2 * (1 / (input.length : K)) else g) j
        else m rr j) st.wi, ?_, ?_⟩
  · simp only [update, if_neg hlen, hrun, Option.map_some']
  · intro r j
    rw [foldl_addRow_count]
    by_cases hsup : cfg.modelN = ModelName.sup
    · simp only [if_pos hsup]
    · simp only [if_neg hsup]

/-- Witness for `update_grad_rescale`: hierarchical-softmax configuration
with empty path for the target, zero tables, input bag `[0]`. -/
theorem update_grad_rescale_witness :
    ∃ wiN,
      update (⟨1, 1, [], [], [], id, id, id, LossName.hs, 0, ModelName.sup, 1⟩ : MCfg ℚ)
        (⟨fun _ _ => 0, fun _ _ => 0, 0⟩ : MState ℚ) [0] 0 = some (0, ⟨wiN, fun _ _ => 0, 0⟩) ∧
      ∀ r j, wiN r j = (fun _ _ => (0 : ℚ)) r j + (([0] : List ℕ).count r : ℚ) *
        (if (⟨1, 1, [], [], [], id, id, id, LossName.hs, 0, ModelName.sup, 1⟩ : MCfg ℚ).modelN
            = ModelName.sup
         then (fun _ => (0 : ℚ)) j * (1 / (([0] : List ℕ).length : ℚ))
         else (fun _ => (0 : ℚ)) j) :=
  update_grad_rescale _ _ [0] 0 0 (fun _ => 0) (fun _ _ => 0) 0
    (by decide) rfl

theorem default_node_eq : (default : HNode) = ⟨-1, -1, -1, 10 ^ 15, false⟩ := rfl

/-! ## Outcome of one `mini[j]` pick -/

/-- Either the leaf cursor wins (then it was valid), or the node cursor
wins and then it points strictly below `i`: the slot at `i` still carries
the `1e15` sentinel, which no real frequency below `1e15` loses against,
and when the leaves are exhausted at least two constructed internal nodes
remain. -/
theorem chooseMini_cases (t : List HNode) (osz i : ℕ) (counts : List Int)
    (leaf node : Int)
    (hfresh : ∀ k : ℕ, (k : Int) ≤ leaf → (nget t k).count = counts.getD k 0)
    (hclen : counts.length = osz)
    (hcnt : ∀ c ∈ counts, c < 10 ^ 15)
    (hsenti : ∀ k : ℕ, i ≤ k → k < 2 * osz - 1 → nget t (k : Int) = default)
    (hleaf_lb : -1 ≤ leaf) (hleaf_ub : leaf < (osz : Int))
    (hnode_ub : node ≤ (i : Int))
    (havail : 1 ≤ leaf + 1 + ((i : Int) - node))
    (hi2 : i < 2 * osz - 1) :
    (0 ≤ leaf ∧ chooseMini t leaf node = (leaf, leaf - 1, node)) ∨
    (node < (i : Int) ∧ chooseMini t leaf node = (node, leaf, node + 1)) := by
  unfold chooseMini
  by_cases hc : 0 ≤ leaf ∧ (nget t leaf).count < (nget t node).count
  · exact Or.inl ⟨hc.1, by rw [if_pos hc]⟩
  · refine Or.inr ⟨?_, by rw [if_neg hc]⟩
    by_cases hnl : node < (i : Int)
    · exact hnl
    · exfalso
      have hni : node = (i : Int) := le_antisymm hnode_ub (not_lt.mp hnl)
      by_cases hlf : 0 ≤ leaf
      · apply hc
        refine ⟨hlf, ?_⟩
        have h1 : nget t node = default := by
          rw [hni]; exact hsenti i (le_refl i) hi2
        have h2 : (nget t leaf).count = counts.getD leaf.toNat 0 := by
          have h := hfresh leaf.toNat (by omega)
          rw [Int.toNat_of_nonneg hlf] at h
          rw [h]
        have hlt : leaf.toNat < counts.length := by omega
        have h3 : counts.getD leaf.toNat 0 < 10 ^ 15 := by
          have hg : counts.getD leaf.toNat 0 = counts[leaf.toNat] := by
            rw [List.getD_eq_getElem?_getD, List.getElem?_eq_getElem hlt,
              Option.getD_some]
          rw [hg]
          exact hcnt _ (List.getElem_mem hlt)
        rw [h1, h2, default_node_eq]
        exact h3
      · omega
theorem mergeStep_eq (s : BState) (i : ℕ) (m0 m1 l1 n1 leaf2 node2 : Int)
    (hc1 : chooseMini s.t s.leaf s.node = (m0, l1, n1))
    (hc2 : chooseMini s.t l1 n1 = (m1, leaf2, node2)) :
    mergeStep s i =
      ⟨nset (nset (nset (nset (nset (nset s.t i fun nd => { nd with left := m0 })
          i fun nd => { nd with right := m1 })
          i fun nd => { nd with count :=
            (nget (nset (nset s.t i fun nd => { nd with left := m0 }) i
              fun nd => { nd with right := m1 }) m0).count +
            (nget (nset (nset s.t i fun nd => { nd with left := m0 }) i
              fun nd => { nd with right := m1 }) m1).count })
          m0 fun nd => { nd with parent := i })
          m1 fun nd => { nd with parent := i })
          m1 fun nd => { nd with binary := true },
       leaf2, node2⟩ := by
  simp only [mergeStep, hc1, hc2]

theorem mergeStep_lookup (s : BState) (i : ℕ) (m0 m1 l1 n1 leaf2 node2 : Int)
    (hc1 : chooseMini s.t s.leaf s.node = (m0, l1, n1))
    (hc2 : chooseMini s.t l1 n1 = (m1, leaf2, node2))
    (hm0 : 0 ≤ m0) (hm0i : m0 < (i : Int))
    (hm1 : 0 ≤ m1) (hm1i : m1 < (i : Int))
    (hne : m0 ≠ m1) (hilen : i < s.t.length) :
    (mergeStep s i).leaf = leaf2 ∧ (mergeStep s i).node = node2 ∧
    nget (mergeStep s i).t (i : Int) =
      { parent := (nget s.t (i : Int)).parent, left := m0, right := m1,
        count := (nget s.t m0).count + (nget s.t m1).count,
        binary := (nget s.t (i : Int)).binary } ∧
    nget (mergeStep s i).t m0 = { nget s.t m0 with parent := (i : Int) } ∧
    nget (mergeStep s i).t m1 =
      { nget s.t m1 with parent := (i : Int), binary := true } ∧
    (∀ j : Int, j ≠ (i : Int) → j ≠ m0 → j ≠ m1 →
      nget (mergeStep s i).t j = nget s.t j) ∧
    (mergeStep s i).t.length = s.t.length := by
  have heq := mergeStep_eq s i m0 m1 l1 n1 leaf2 node2 hc1 hc2
  rw [heq]
  have him0 : (i : Int) ≠ m0 := by omega
  have him1 : (i : Int) ≠ m1 := by omega
  have hm0m1 : m0 ≠ m1 := hne
  have hm1m0 : m1 ≠ m0 := hne.symm
  have hi0 : (0 : Int) ≤ (i : Int) := by omega
  have hiN : ((i : Int)).toNat < s.t.length := by omega
  have hm0N : m0.toNat < s.t.length := by omega
  have hm1N : m1.toNat < s.t.length := by omega
  -- abbreviations
  set t1 := nset s.t (i : Int) fun nd => { nd with left := m0 } with ht1
  set t2 := nset t1 (i : Int) fun nd => { nd with right := m1 } with ht2
  have len1 : t1.length = s.t.length := nset_length ..
  have len2 : t2.length = s.t.length := by rw [ht2, nset_length, len1]
  have g2m0 : nget t2 m0 = nget s.t m0 := by
    rw [ht2, nget_nset_ne _ _ _ _ him0, ht1, nget_nset_ne _ _ _ _ him0]
  have g2m1 : nget t2 m1 = nget s.t m1 := by
    rw [ht2, nget_nset_ne _ _ _ _ him1, ht1, nget_nset_ne _ _ _ _ him1]
  set t3 := nset t2 (i : Int) fun nd =>
    { nd with count := (nget t2 m0).count + (nget t2 m1).count } with ht3
  set t4 := nset t3 m0 fun nd => { nd with parent := (i : Int) } with ht4
  set t5 := nset t4 m1 fun nd => { nd with parent := (i : Int) } with ht5
  set t6 := nset t5 m1 fun nd => { nd with binary := true } with ht6
  have len3 : t3.length = s.t.length := by rw [ht3, nset_length, len2]
  have len4 : t4.length = s.t.length := by rw [ht4, nset_length, len3]
  have len5 : t5.length = s.t.length := by rw [ht5, nset_length, len4]
  have len6 : t6.length = s.t.length := by rw [ht6, nset_length, len5]
  have g1i : nget t1 (i : Int) = { nget s.t (i : Int) with left := m0 } :=
    nget_nset_same _ _ _ hi0 hiN
  have g2i : nget t2 (i : Int) =
      { nget s.t (i : Int) with left := m0, right := m1 } := by
    rw [ht2, nget_nset_same _ _ _ hi0 (by rw [len1]; exact hiN), g1i]
  have g3i : nget t3 (i : Int) =
      { parent := (nget s.t (i : Int)).parent, left := m0, right := m1,
        count := (nget s.t m0).count + (nget s.t m1).count,
        binary := (nget s.t (i : Int)).binary } := by
    rw [ht3, nget_nset_same _ _ _ hi0 (by rw [len2]; exact hiN), g2i, g2m0, g2m1]
  have g3m0 : nget t3 m0 = nget s.t m0 := by
    rw [ht3, nget_nset_ne _ _ _ _ him0, g2m0]
  have g3m1 : nget t3 m1 = nget s.t m1 := by
    rw [ht3, nget_nset_ne _ _ _ _ him1, g2m1]
  have g4m0 : nget t4 m0 = { nget s.t m0 with parent := (i : Int) } := by
    rw [ht4, nget_nset_same _ _ _ hm0 (by rw [len3]; exact hm0N), g3m0]
  have g4m1 : nget t4 m1 = nget s.t m1 := by
    rw [ht4, nget_nset_ne _ _ _ _ hm0m1, g3m1]
  have g5m1 : nget t5 m1 = { nget s.t m1 with parent := (i : Int) } := by
    rw [ht5, nget_nset_same _ _ _ hm1 (by rw [len4]; exact hm1N), g4m1]
  have g6i : nget t6 (i : Int) =
      { parent := (nget s.t (i : Int)).parent, left := m0, right := m1,
        count := (nget s.t m0).count + (nget s.t m1).count,
        binary := (nget s.t (i : Int)).binary } := by
    rw [ht6, nget_nset_ne _ _ _ _ him1.symm, ht5, nget_nset_ne _ _ _ _ him1.symm,
      ht4, nget_nset_ne _ _ _ _ him0.symm, g3i]
  have g6m0 : nget t6 m0 = { nget s.t m0 with parent := (i : Int) } := by
    rw [ht6, nget_nset_ne _ _ _ _ hm1m0, ht5, nget_nset_ne _ _ _ _ hm1m0, g4m0]
  have g6m1 : nget t6 m1 =
      { nget s.t m1 with parent := (i : Int), binary := true } := by
    rw [ht6, nget_nset_same _ _ _ hm1 (by rw [len5]; exact hm1N), g5m1]
  refine ⟨rfl, rfl, g6i, g6m0, g6m1, ?_, len6⟩
  intro j hji hjm0 hjm1
  rw [ht6, nget_nset_ne _ _ _ _ (Ne.symm hjm1), ht5, nget_nset_ne _ _ _ _ (Ne.symm hjm1),
    ht4, nget_nset_ne _ _ _ _ (Ne.symm hjm0), ht3, nget_nset_ne _ _ _ _ (Ne.symm hji),
    ht2, nget_nset_ne _ _ _ _ (Ne.symm hji), ht1, nget_nset_ne _ _ _ _ (Ne.symm hji)]

theorem leavesUnder_fuel (t : List HNode) (bound : ℕ) (hcd : ChildDec bound t) :
    ∀ k : ℕ, k < bound → ∀ f1 f2 : ℕ, k < f1 → k < f2 →
      leavesUnder t f1 (k : Int) = leavesUnder t f2 (k : Int) := by
  intro k
  induction k using Nat.strong_induction_on with
  | _ k ih =>
    intro hk f1 f2 hf1 hf2
    obtain ⟨g1, rfl⟩ : ∃ g, f1 = g + 1 := ⟨f1 - 1, by omega⟩
    obtain ⟨g2, rfl⟩ : ∃ g, f2 = g + 1 := ⟨f2 - 1, by omega⟩
    simp only [leavesUnder]
    rcases hcd k hk with hleaf | ⟨a, b, ha, hb, hak, hbk⟩
    · rw [if_pos ⟨hleaf.1, hleaf.2⟩, if_pos ⟨hleaf.1, hleaf.2⟩]
    · have hcond : ¬((nget t (k : Int)).left = -1 ∧ (nget t (k : Int)).right = -1) := by
        rw [ha]; rintro ⟨h1, _⟩; omega
      rw [if_neg hcond, if_neg hcond, ha, hb,
        ih a hak (by omega) g1 g2 (by omega) (by omega),
        ih b hbk (by omega) g1 g2 (by omega) (by omega)]

theorem leavesUnder_congr (t t2 : List HNode) (bound : ℕ)
    (hcd : ChildDec bound t)
    (hsame : ∀ k : ℕ, k < bound →
      (nget t2 (k : Int)).left = (nget t (k : Int)).left ∧
      (nget t2 (k : Int)).right = (nget t (k : Int)).right) :
    ∀ k : ℕ, k < bound → ∀ f, leavesUnder t2 f (k : Int) = leavesUnder t f (k : Int) := by
  intro k
  induction k using Nat.strong_induction_on with
  | _ k ih =>
    intro hk f
    cases f with
    | zero => rfl
    | succ g =>
      simp only [leavesUnder]
      obtain ⟨hl, hr⟩ := hsame k hk
      rw [hl, hr]
      rcases hcd k hk with hleaf | ⟨a, b, ha, hb, hak, hbk⟩
      · rw [if_pos ⟨hleaf.1, hleaf.2⟩, if_pos ⟨hleaf.1, hleaf.2⟩]
      · have hcond : ¬((nget t (k : Int)).left = -1 ∧ (nget t (k : Int)).right = -1) := by
          rw [ha]; rintro ⟨h1, _⟩; omega
        rw [if_neg hcond, if_neg hcond, ha, hb,
          ih a hak (by omega) g, ih b hbk (by omega) g]

theorem BInv_childDec (osz : ℕ) (counts : List Int) (s : BState) (i : ℕ)
    (inv : BInv osz counts s i) : ChildDec i s.t := by
  intro k hk
  by_cases hko : k < osz
  · obtain ⟨hl, hr, _⟩ := inv.hleafrec k hko
    exact Or.inl ⟨hl, hr⟩
  · obtain ⟨a, b, ha, hb, hak, hbk, _, _⟩ := inv.hbuilt k (by omega) hk
    exact Or.inr ⟨a, b, ha, hb, hak, hbk⟩

theorem leaf_LU (osz : ℕ) (counts : List Int) (s : BState) (i : ℕ)
    (inv : BInv osz counts s i) (k : ℕ) (hk : k < osz) (g : ℕ) :
    leavesUnder s.t (g + 1) (k : Int) = 1 := by
  obtain ⟨hl, hr, _⟩ := inv.hleafrec k hk
  simp only [leavesUnder]
  rw [if_pos ⟨hl, hr⟩]

theorem BInv_step_core (osz : ℕ) (counts : List Int) (s s2 : BState) (i : ℕ)
    (inv : BInv osz counts s i)
    (hosz : osz ≤ i) (hi2 : i < 2 * osz - 1)
    (m0 m1 : Int)
    (hm0 : 0 ≤ m0) (hm0i : m0 < (i : Int))
    (hm1 : 0 ≤ m1) (hm1i : m1 < (i : Int)) (hne : m0 ≠ m1)
    (hA : nget s2.t (i : Int) =
      { parent := (nget s.t (i : Int)).parent, left := m0, right := m1,
        count := (nget s.t m0).count + (nget s.t m1).count,
        binary := (nget s.t (i : Int)).binary })
    (hB : nget s2.t m0 = { nget s.t m0 with parent := (i : Int) })
    (hC : nget s2.t m1 = { nget s.t m1 with parent := (i : Int), binary := true })
    (hD : ∀ j : Int, j ≠ (i : Int) → j ≠ m0 → j ≠ m1 → nget s2.t j = nget s.t j)
    (hL : s2.t.length = s.t.length)
    (hm0b : (nget s.t m0).binary = false)
    (hm1b : (nget s.t m1).binary = false)
    (hub : ∀ k : ℕ, (k : Int) ≤ s2.leaf →
      (k : Int) ≤ s.leaf ∧ (k : Int) ≠ m0 ∧ (k : Int) ≠ m1)
    (hui : ∀ k : ℕ, s2.node ≤ (k : Int) → k < i →
      s.node ≤ (k : Int) ∧ (k : Int) ≠ m0 ∧ (k : Int) ≠ m1)
    (huc : ∀ k : ℕ, k < i → Consumed osz s2 k →
      Consumed osz s k ∨ (k : Int) = m0 ∨ (k : Int) = m1)
    (hlb2 : -1 ≤ s2.leaf) (hub2 : s2.leaf < (osz : Int))
    (hnlb2 : (osz : Int) ≤ s2.node) (hnub2 : s2.node ≤ (i : Int))
    (hsize2 : s2.leaf + 1 + (((i : Int) + 1) - s2.node) = 2 * (osz : Int) - ((i : Int) + 1))
    (hcount2 : (s2.leaf + 1).toNat +
      ((List.range' s2.node.toNat (i + 1 - s2.node.toNat)).map
        (fun k : ℕ => leavesUnder s2.t (2 * osz) (k : Int))).sum = osz) :
    BInv osz counts s2 (i + 1) := by
  have hE : ∀ j : Int, j ≠ (i : Int) →
      (nget s2.t j).left = (nget s.t j).left ∧
      (nget s2.t j).right = (nget s.t j).right ∧
      (nget s2.t j).count = (nget s.t j).count := by
    intro j hj
    by_cases hj0 : j = m0
    · subst hj0; rw [hB]; exact ⟨rfl, rfl, rfl⟩
    · by_cases hj1 : j = m1
      · subst hj1; rw [hC]; exact ⟨rfl, rfl, rfl⟩
      · rw [hD j hj hj0 hj1]; exact ⟨rfl, rfl, rfl⟩
  have hF : ∀ j : Int, j ≠ (i : Int) → j ≠ m0 → j ≠ m1 →
      (nget s2.t j).parent = (nget s.t j).parent ∧
      (nget s2.t j).binary = (nget s.t j).binary := by
    intro j hj hj0 hj1; rw [hD j hj hj0 hj1]; exact ⟨rfl, rfl⟩
  have hsentI : nget s.t (i : Int) = default := inv.hsent i (le_refl i) hi2
  refine
    { hlen := by rw [hL]; exact inv.hlen
      hleaf_lb := hlb2
      hleaf_ub := hub2
      hnode_lb := hnlb2
      hnode_ub := by omega
      hnode_ub' := fun _ => by omega
      hsize := by omega
      hfresh := ?_
      hleafrec := ?_
      hsent := ?_
      hbuilt := ?_
      hroot := ?_
      hcons := ?_
      hcount := hcount2 }
  · -- hfresh
    intro k hk
    obtain ⟨hk1, hk2, hk3⟩ := hub k hk
    have hki : (k : Int) ≠ (i : Int) := by
      have := inv.hleaf_ub
      omega
    rw [hD _ hki hk2 hk3]
    exact inv.hfresh k hk1
  · -- hleafrec
    intro k hko
    have hki : (k : Int) ≠ (i : Int) := by omega
    obtain ⟨e1, e2, e3⟩ := hE (k : Int) hki
    obtain ⟨o1, o2, o3⟩ := inv.hleafrec k hko
    exact ⟨by rw [e1]; exact o1, by rw [e2]; exact o2, by rw [e3]; exact o3⟩
  · -- hsent
    intro k hk1 hk2
    have h1 : (k : Int) ≠ (i : Int) := by omega
    have h2 : (k : Int) ≠ m0 := by omega
    have h3 : (k : Int) ≠ m1 := by omega
    rw [hD _ h1 h2 h3]
    exact inv.hsent k (by omega) hk2
  · -- hbuilt
    intro k hk1 hk2
    by_cases hki : k = i
    · subst hki
      refine ⟨m0.toNat, m1.toNat, ?_, ?_, by omega, by omega, by omega, ?_⟩
      · rw [hA]; exact (Int.toNat_of_nonneg hm0).symm
      · rw [hA]; exact (Int.toNat_of_nonneg hm1).symm
      · rw [hA, Int.toNat_of_nonneg hm0, Int.toNat_of_nonneg hm1, hB, hC]
    · obtain ⟨a, b, ha, hb, hak, hbk, hab, hcnt⟩ := inv.hbuilt k hk1 (by omega)
      have hki2 : (k : Int) ≠ (i : Int) := by omega
      obtain ⟨e1, e2, e3⟩ := hE k hki2
      have hai : (a : Int) ≠ (i : Int) := by omega
      have hbi : (b : Int) ≠ (i : Int) := by omega
      refine ⟨a, b, by rw [e1]; exact ha, by rw [e2]; exact hb, hak, hbk, hab, ?_⟩
      rw [e3, (hE a hai).2.2, (hE b hbi).2.2]
      exact hcnt
  · -- hroot
    intro k hk1 hk2
    by_cases hki : k = i
    · subst hki
      have hp : (nget s2.t (k : Int)).parent = (nget s.t (k : Int)).parent := by
        rw [hA]
      have hbn : (nget s2.t (k : Int)).binary = (nget s.t (k : Int)).binary := by
        rw [hA]
      rw [hp, hbn, hsentI, default_node_eq]
      exact ⟨rfl, rfl⟩
    · obtain ⟨h1, h2, h3⟩ := hui k hk1 (by omega)
      obtain ⟨f1, f2⟩ := hF k (by omega) h2 h3
      rw [f1, f2]
      exact inv.hroot k h1 (by omega)
  · -- hcons
    intro k hk hcons2
    have hkne : k ≠ i := by
      intro h
      subst h
      rcases hcons2 with ⟨_, h2⟩ | ⟨_, h2⟩ <;> omega
    have hk : k < i := by omega
    by_cases hkm0 : (k : Int) = m0
    · have hparent : (nget s2.t (k : Int)).parent = (i : Int) := by rw [hkm0, hB]
      have hbin : (nget s2.t (k : Int)).binary = false := by
        rw [hkm0, hB]; exact hm0b
      refine ⟨by rw [hparent]; omega, by rw [hparent]; omega,
        by rw [hparent]; omega, ?_⟩
      rw [hbin, hparent]
      simp only [Bool.false_eq_true, if_false]
      rw [hA]
      exact hkm0.symm
    · by_cases hkm1 : (k : Int) = m1
      · have hparent : (nget s2.t (k : Int)).parent = (i : Int) := by rw [hkm1, hC]
        have hbin : (nget s2.t (k : Int)).binary = true := by rw [hkm1, hC]
        refine ⟨by rw [hparent]; omega, by rw [hparent]; omega,
          by rw [hparent]; omega, ?_⟩
        rw [hbin, hparent]
        simp only [if_true]
        rw [hA]
        exact hkm1.symm
      · have hcold : Consumed osz s k := by
          rcases huc k hk hcons2 with h | h | h
          · exact h
          · exact absurd h hkm0
          · exact absurd h hkm1
        obtain ⟨o1, o2, o3, o4⟩ := inv.hcons k hk hcold
        have hki : (k : Int) ≠ (i : Int) := by omega
        obtain ⟨f1, f2⟩ := hF k hki hkm0 hkm1
        have hpi : (nget s.t (k : Int)).parent ≠ (i : Int) := by omega
        rw [f1, f2]
        refine ⟨o1, o2, by omega, ?_⟩
        have hEp := hE ((nget s.t (k : Int)).parent) hpi
        cases hob : (nget s.t (k : Int)).binary with
        | false =>
          rw [hob] at o4
          simp only [Bool.false_eq_true, if_false] at o4 ⊢
          rw [hEp.1]
          exact o4
        | true =>
          rw [hob] at o4
          simp only [if_true] at o4 ⊢
          rw [hEp.2.1]
          exact o4

theorem mergeStep_LU_pres (osz : ℕ) (counts : List Int) (s s2 : BState) (i : ℕ)
    (inv : BInv osz counts s i) (m0 m1 : Int)
    (hB : nget s2.t m0 = { nget s.t m0 with parent := (i : Int) })
    (hC : nget s2.t m1 = { nget s.t m1 with parent := (i : Int), binary := true })
    (hD : ∀ j : Int, j ≠ (i : Int) → j ≠ m0 → j ≠ m1 → nget s2.t j = nget s.t j) :
    ∀ k : ℕ, k < i → ∀ f,
      leavesUnder s2.t f (k : Int) = leavesUnder s.t f (k : Int) := by
  apply leavesUnder_congr s.t s2.t i (BInv_childDec osz counts s i inv)
  intro k hk
  by_cases h0 : (k : Int) = m0
  · rw [h0, hB]; exact ⟨rfl, rfl⟩
  · by_cases h1 : (k : Int) = m1
    · rw [h1, hC]; exact ⟨rfl, rfl⟩
    · rw [hD (k : Int) (by omega) h0 h1]; exact ⟨rfl, rfl⟩

theorem mergeStep_LU_node (osz : ℕ) (counts : List Int) (s s2 : BState) (i : ℕ)
    (inv : BInv osz counts s i) (hosz : osz ≤ i) (hi2 : i < 2 * osz - 1)
    (m0 m1 : Int) (hm0 : 0 ≤ m0) (hm0i : m0 < (i : Int))
    (hm1 : 0 ≤ m1) (hm1i : m1 < (i : Int))
    (hA : nget s2.t (i : Int) =
      { parent := (nget s.t (i : Int)).parent, left := m0, right := m1,
        count := (nget s.t m0).count + (nget s.t m1).count,
        binary := (nget s.t (i : Int)).binary })
    (hB : nget s2.t m0 = { nget s.t m0 with parent := (i : Int) })
    (hC : nget s2.t m1 = { nget s.t m1 with parent := (i : Int), binary := true })
    (hD : ∀ j : Int, j ≠ (i : Int) → j ≠ m0 → j ≠ m1 → nget s2.t j = nget s.t j) :
    leavesUnder s2.t (2 * osz) (i : Int) =
      leavesUnder s.t (2 * osz) m0 + leavesUnder s.t (2 * osz) m1 := by
  have hpres := mergeStep_LU_pres osz counts s s2 i inv m0 m1 hB hC hD
  have hcd := BInv_childDec osz counts s i inv
  obtain ⟨g, hg⟩ : ∃ g, 2 * osz = g + 1 := ⟨2 * osz - 1, by omega⟩
  rw [hg]
  simp only [leavesUnder]
  rw [hA]
  simp only
  rw [if_neg (by rintro ⟨h1, _⟩; omega)]
  have hm0c : m0 = ((m0.toNat : ℕ) : Int) := (Int.toNat_of_nonneg hm0).symm
  have hm1c : m1 = ((m1.toNat : ℕ) : Int) := (Int.toNat_of_nonneg hm1).symm
  rw [hm0c, hm1c, hpres m0.toNat (by omega) g, hpres m1.toNat (by omega) g,
    leavesUnder_fuel s.t i hcd m0.toNat (by omega) g (g + 1) (by omega) (by omega),
    leavesUnder_fuel s.t i hcd m1.toNat (by omega) g (g + 1) (by omega) (by omega)]
  simp only [leavesUnder]

theorem range'_concat_1 (s n : ℕ) :
    List.range' s (n + 1) = List.range' s n ++ [s + n] := by
  have h : List.range' s (n + 1) = List.range' s n ++ [s + 1 * n] :=
    List.range'_concat s n
  simpa using h

theorem BInv_step (osz : ℕ) (counts : List Int) (s : BState) (i : ℕ)
    (inv : BInv osz counts s i)
    (hclen : counts.length = osz)
    (hcnt : ∀ c ∈ counts, c < 10 ^ 15)
    (hosz : osz ≤ i) (hi2 : i < 2 * osz - 1) :
    BInv osz counts (mergeStep s i) (i + 1) := by
  have hfreshc : ∀ k : ℕ, (k : Int) ≤ s.leaf →
      (nget s.t (k : Int)).count = counts.getD k 0 :=
    fun k hk => by rw [inv.hfresh k hk]
  have hilen : i < s.t.length := by rw [inv.hlen]; omega
  have hnlb := inv.hnode_lb
  have hnub := inv.hnode_ub
  have hllb := inv.hleaf_lb
  have hlub := inv.hleaf_ub
  have hsz := inv.hsize
  have hln0 : 0 ≤ s.node := by omega
  have hlncast : ((s.node.toNat : ℕ) : Int) = s.node := Int.toNat_of_nonneg hln0
  have hc1spec := chooseMini_cases s.t osz i counts s.leaf s.node hfreshc hclen hcnt
    inv.hsent hllb hlub hnub (by omega) hi2
  rcases hc1spec with ⟨hl0, hc1⟩ | ⟨hn0, hc1⟩
  · -- mini[0] = leaf
    have hlfcast : ((s.leaf.toNat : ℕ) : Int) = s.leaf := Int.toNat_of_nonneg hl0
    have hm0b : (nget s.t s.leaf).binary = false := by
      rw [← hlfcast, inv.hfresh s.leaf.toNat (by omega)]
    have hLU0 : leavesUnder s.t (2 * osz) s.leaf = 1 := by
      rw [← hlfcast, show 2 * osz = (2 * osz - 1) + 1 by omega]
      exact leaf_LU osz counts s i inv s.leaf.toNat (by omega) _
    have hc2spec := chooseMini_cases s.t osz i counts (s.leaf - 1) s.node
      (fun k hk => hfreshc k (by omega)) hclen hcnt inv.hsent (by omega) (by omega)
      hnub (by omega) hi2
    rcases hc2spec with ⟨hl1, hc2⟩ | ⟨hn1, hc2⟩
    · -- case LL : mini[1] = leaf - 1
      have hm1b : (nget s.t (s.leaf - 1)).binary = false := by
        rw [show s.leaf - 1 = (((s.leaf - 1).toNat : ℕ) : Int) from
          (Int.toNat_of_nonneg hl1).symm, inv.hfresh (s.leaf - 1).toNat (by omega)]
      have hLU1 : leavesUnder s.t (2 * osz) (s.leaf - 1) = 1 := by
        rw [show s.leaf - 1 = (((s.leaf - 1).toNat : ℕ) : Int) from
          (Int.toNat_of_nonneg hl1).symm, show 2 * osz = (2 * osz - 1) + 1 by omega]
        exact leaf_LU osz counts s i inv (s.leaf - 1).toNat (by omega) _
      obtain ⟨lkl, lkn, hA, hB, hC, hD, hL⟩ := mergeStep_lookup s i s.leaf
        (s.leaf - 1) (s.leaf - 1) s.node (s.leaf - 1 - 1) s.node hc1 hc2 hl0 (by omega)
        hl1 (by omega) (by omega) hilen
      have hpres := mergeStep_LU_pres osz counts s (mergeStep s i) i inv _ _ hB hC hD
      have hlui := mergeStep_LU_node osz counts s (mergeStep s i) i inv hosz hi2
        _ _ hl0 (by omega) hl1 (by omega) hA hB hC hD
      apply BInv_step_core osz counts s (mergeStep s i) i inv hosz hi2 _ _ hl0
        (by omega) hl1 (by omega) (by omega) hA hB hC hD hL hm0b hm1b
      · intro k hk; rw [lkl] at hk; exact ⟨by omega, by omega, by omega⟩
      · intro k hk1 hk2; rw [lkn] at hk1; exact ⟨hk1, by omega, by omega⟩
      · intro k hk hc
        simp only [Consumed, lkl, lkn] at hc ⊢
        omega
      · rw [lkl]; omega
      · rw [lkl]; omega
      · rw [lkn]; omega
      · rw [lkn]; omega
      · rw [lkl, lkn]; omega
      · rw [lkl, lkn]
        have hrange : List.range' s.node.toNat (i + 1 - s.node.toNat)
            = List.range' s.node.toNat (i - s.node.toNat) ++ [i] := by
          rw [show i + 1 - s.node.toNat = (i - s.node.toNat) + 1 by omega,
            range'_concat_1, show s.node.toNat + (i - s.node.toNat) = i by omega]
        rw [hrange, List.map_append, List.sum_append]
        simp only [List.map_cons, List.map_nil, List.sum_cons, List.sum_nil]
        have hmapeq : (List.range' s.node.toNat (i - s.node.toNat)).map
            (fun k : ℕ => leavesUnder (mergeStep s i).t (2 * osz) (k : Int))
            = (List.range' s.node.toNat (i - s.node.toNat)).map
            (fun k : ℕ => leavesUnder s.t (2 * osz) (k : Int)) := by
          refine List.map_congr_left fun a ha => ?_
          have hb := List.mem_range'_1.mp ha
          exact hpres a (by omega) (2 * osz)
        rw [hmapeq, hlui, hLU0, hLU1]
        have hold := inv.hcount
        omega
    · -- case LN : mini[1] = node
      have hm1b : (nget s.t s.node).binary = false := by
        rw [← hlncast]
        exact (inv.hroot s.node.toNat (by omega) (by omega)).2
      obtain ⟨lkl, lkn, hA, hB, hC, hD, hL⟩ := mergeStep_lookup s i s.leaf
        s.node (s.leaf - 1) s.node (s.leaf - 1) (s.node + 1) hc1 hc2 hl0 (by omega)
        (by omega) hn1 (by omega) hilen
      have hpres := mergeStep_LU_pres osz counts s (mergeStep s i) i inv _ _ hB hC hD
      have hlui := mergeStep_LU_node osz counts s (mergeStep s i) i inv hosz hi2
        _ _ hl0 (by omega) (by omega) hn1 hA hB hC hD
      apply BInv_step_core osz counts s (mergeStep s i) i inv hosz hi2 _ _ hl0
        (by omega) (by omega) hn1 (by omega) hA hB hC hD hL hm0b hm1b
      · intro k hk; rw [lkl] at hk; exact ⟨by omega, by omega, by omega⟩
      · intro k hk1 hk2; rw [lkn] at hk1; exact ⟨by omega, by omega, by omega⟩
      · intro k hk hc
        simp only [Consumed, lkl, lkn] at hc ⊢
        omega
      · rw [lkl]; omega
      · rw [lkl]; omega
      · rw [lkn]; omega
      · rw [lkn]; omega
      · rw [lkl, lkn]; omega
      · rw [lkl, lkn]
        have htn : (s.node + 1).toNat = s.node.toNat + 1 := by omega
        rw [htn, show i + 1 - (s.node.toNat + 1) = (i - s.node.toNat - 1) + 1 by omega,
          range'_concat_1,
          show s.node.toNat + 1 + (i - s.node.toNat - 1) = i by omega,
          List.map_append, List.sum_append]
        simp only [List.map_cons, List.map_nil, List.sum_cons, List.sum_nil]
        have hmapeq : (List.range' (s.node.toNat + 1) (i - s.node.toNat - 1)).map
            (fun k : ℕ => leavesUnder (mergeStep s i).t (2 * osz) (k : Int))
            = (List.range' (s.node.toNat + 1) (i - s.node.toNat - 1)).map
            (fun k : ℕ => leavesUnder s.t (2 * osz) (k : Int)) := by
          refine List.map_congr_left fun a ha => ?_
          have hb := List.mem_range'_1.mp ha
          exact hpres a (by omega) (2 * osz)
        rw [hmapeq, hlui, hLU0]
        have hold := inv.hcount
        rw [show i - s.node.toNat = (i - s.node.toNat - 1) + 1 by omega,
          List.range'_succ, List.map_cons, List.sum_cons, hlncast] at hold
        omega
  · -- mini[0] = node
    have hm0b : (nget s.t s.node).binary = false := by
      rw [← hlncast]
      exact (inv.hroot s.node.toNat (by omega) (by omega)).2
    have hc2spec := chooseMini_cases s.t osz i counts s.leaf (s.node + 1)
      hfreshc hclen hcnt inv.hsent hllb hlub (by omega) (by omega) hi2
    rcases hc2spec with ⟨hl1, hc2⟩ | ⟨hn1, hc2⟩
    · -- case NL : mini[1] = leaf
      have hlfcast : ((s.leaf.toNat : ℕ) : Int) = s.leaf := Int.toNat_of_nonneg hl1
      have hm1b : (nget s.t s.leaf).binary = false := by
        rw [← hlfcast, inv.hfresh s.leaf.toNat (by omega)]
      have hLU1 : leavesUnder s.t (2 * osz) s.leaf = 1 := by
        rw [← hlfcast, show 2 * osz = (2 * osz - 1) + 1 by omega]
        exact leaf_LU osz counts s i inv s.leaf.toNat (by omega) _
      obtain ⟨lkl, lkn, hA, hB, hC, hD, hL⟩ := mergeStep_lookup s i s.node
        s.leaf s.leaf (s.node + 1) (s.leaf - 1) (s.node + 1) hc1 hc2 (by omega) hn0
        hl1 (by omega) (by omega) hilen
      have hpres := mergeStep_LU_pres osz counts s (mergeStep s i) i inv _ _ hB hC hD
      have hlui := mergeStep_LU_node osz counts s (mergeStep s i) i inv hosz hi2
        _ _ (by omega) hn0 hl1 (by omega) hA hB hC hD
      apply BInv_step_core osz counts s (mergeStep s i) i inv hosz hi2 _ _
        (by omega) hn0 hl1 (by omega) (by omega) hA hB hC hD hL hm0b hm1b
      · intro k hk; rw [lkl] at hk; exact ⟨by omega, by omega, by omega⟩
      · intro k hk1 hk2; rw [lkn] at hk1; exact ⟨by omega, by omega, by omega⟩
      · intro k hk hc
        simp only [Consumed, lkl, lkn] at hc ⊢
        omega
      · rw [lkl]; omega
      · rw [lkl]; omega
      · rw [lkn]; omega
      · rw [lkn]; omega
      · rw [lkl, lkn]; omega
      · rw [lkl, lkn]
        have htn : (s.node + 1).toNat = s.node.toNat + 1 := by omega
        rw [htn, show i + 1 - (s.node.toNat + 1) = (i - s.node.toNat - 1) + 1 by omega,
          range'_concat_1,
          show s.node.toNat + 1 + (i - s.node.toNat - 1) = i by omega,
          List.map_append, List.sum_append]
        simp only [List.map_cons, List.map_nil, List.sum_cons, List.sum_nil]
        have hmapeq : (List.range' (s.node.toNat + 1) (i - s.node.toNat - 1)).map
            (fun k : ℕ => leavesUnder (mergeStep s i).t (2 * osz) (k : Int))
            = (List.range' (s.node.toNat + 1) (i - s.node.toNat - 1)).map
            (fun k : ℕ => leavesUnder s.t (2 * osz) (k : Int)) := by
          refine List.map_congr_left fun a ha => ?_
          have hb := List.mem_range'_1.mp ha
          exact hpres a (by omega) (2 * osz)
        rw [hmapeq, hlui, hLU1]
        have hold := inv.hcount
        rw [show i - s.node.toNat = (i - s.node.toNat - 1) + 1 by omega,
          List.range'_succ, List.map_cons, List.sum_cons, hlncast] at hold
        omega
    · -- case NN : mini[1] = node + 1
      have hm1b : (nget s.t (s.node + 1)).binary = false := by
        rw [show s.node + 1 = ((s.node.toNat + 1 : ℕ) : Int) by omega]
        exact (inv.hroot (s.node.toNat + 1) (by omega) (by omega)).2
      obtain ⟨lkl, lkn, hA, hB, hC, hD, hL⟩ := mergeStep_lookup s i s.node
        (s.node + 1) s.leaf (s.node + 1) s.leaf (s.node + 1 + 1) hc1 hc2 (by omega) hn0
        (by omega) hn1 (by omega) hilen
      have hpres := mergeStep_LU_pres osz counts s (mergeStep s i) i inv _ _ hB hC hD
      have hlui := mergeStep_LU_node osz counts s (mergeStep s i) i inv hosz hi2
        _ _ (by omega) hn0 (by omega) hn1 hA hB hC hD
      apply BInv_step_core osz counts s (mergeStep s i) i inv hosz hi2 _ _
        (by omega) hn0 (by omega) hn1 (by omega) hA hB hC hD hL hm0b hm1b
      · intro k hk; rw [lkl] at hk; exact ⟨by omega, by omega, by omega⟩
      · intro k hk1 hk2; rw [lkn] at hk1; exact ⟨by omega, by omega, by omega⟩
      · intro k hk hc
        simp only [Consumed, lkl, lkn] at hc ⊢
        omega
      · rw [lkl]; omega
      · rw [lkl]; omega
      · rw [lkn]; omega
      · rw [lkn]; omega
      · rw [lkl, lkn]; omega
      · rw [lkl, lkn]
        have htn : (s.node + 1 + 1).toNat = s.node.toNat + 2 := by omega
        rw [htn, show i + 1 - (s.node.toNat + 2) = (i - s.node.toNat - 2) + 1 by omega,
          range'_concat_1,
          show s.node.toNat + 2 + (i - s.node.toNat - 2) = i by omega,
          List.map_append, List.sum_append]
        simp only [List.map_cons, List.map_nil, List.sum_cons, List.sum_nil]
        have hmapeq : (List.range' (s.node.toNat + 2) (i - s.node.toNat - 2)).map
            (fun k : ℕ => leavesUnder (mergeStep s i).t (2 * osz) (k : Int))
            = (List.range' (s.node.toNat + 2) (i - s.node.toNat - 2)).map
            (fun k : ℕ => leavesUnder s.t (2 * osz) (k : Int)) := by
          refine List.map_congr_left fun a ha => ?_
          have hb := List.mem_range'_1.mp ha
          exact hpres a (by omega) (2 * osz)
        rw [hmapeq, hlui]
        have hold := inv.hcount
        rw [show i - s.node.toNat = (i - s.node.toNat - 2) + 1 + 1 by omega,
          List.range'_succ, List.range'_succ, List.map_cons, List.map_cons,
          List.sum_cons, List.sum_cons, hlncast,
          show ((s.node.toNat + 1 : ℕ) : Int) = s.node + 1 by omega,
          show s.node.toNat + 1 + 1 = s.node.toNat + 2 by omega] at hold
        omega

theorem initTree_nget (osz : ℕ) (counts : List Int) (k : ℕ) (hk : k < 2 * osz - 1) :
    nget (initTree osz counts) (k : Int) =
      if k < osz then { count := counts.getD k 0 } else default := by
  unfold nget initTree
  rw [if_neg (by omega), Int.toNat_natCast, List.getD_eq_getElem?_getD,
    List.getElem?_map, List.getElem?_range hk]
  rfl

theorem initTree_length (osz : ℕ) (counts : List Int) :
    (initTree osz counts).length = 2 * osz - 1 := by
  unfold initTree
  rw [List.length_map, List.length_range]

theorem BInv_init (osz : ℕ) (counts : List Int) (hosz : 1 ≤ osz) :
    BInv osz counts ⟨initTree osz counts, (osz : Int) - 1, (osz : Int)⟩ osz := by
  refine
    { hlen := initTree_length osz counts
      hleaf_lb := by dsimp only; omega
      hleaf_ub := by dsimp only; omega
      hnode_lb := by dsimp only; omega
      hnode_ub := by dsimp only; omega
      hnode_ub' := by dsimp only; omega
      hsize := by dsimp only; omega
      hfresh := ?_
      hleafrec := ?_
      hsent := ?_
      hbuilt := ?_
      hroot := ?_
      hcons := ?_
      hcount := ?_ }
  · intro k hk
    dsimp only at hk ⊢
    rw [initTree_nget osz counts k (by omega), if_pos (by omega)]
  · intro k hk
    dsimp only
    rw [initTree_nget osz counts k (by omega), if_pos hk]
    exact ⟨rfl, rfl, rfl⟩
  · intro k hk1 hk2
    dsimp only
    rw [initTree_nget osz counts k hk2, if_neg (by omega)]
  · intro k hk1 hk2
    exact absurd hk2 (by omega)
  · intro k hk1 hk2
    dsimp only at hk1
    exact absurd hk1 (by omega)
  · intro k hk hc
    exfalso
    simp only [Consumed] at hc
    omega
  · rw [show ((osz : Int) - 1 + 1).toNat = osz by omega,
      show ((osz : Int)).toNat = osz from Int.toNat_natCast osz,
      show osz - osz = 0 by omega, List.range'_zero]
    simp

theorem BInv_fold (osz : ℕ) (counts : List Int)
    (hclen : counts.length = osz) (hcnt : ∀ c ∈ counts, c < 10 ^ 15) :
    ∀ n i s, BInv osz counts s i → osz ≤ i → i + n ≤ 2 * osz - 1 →
      BInv osz counts ((List.range' i n).foldl mergeStep s) (i + n) := by
  intro n
  induction n with
  | zero => intro i s inv _ _; simpa using inv
  | succ m ih =>
    intro i s inv hi hib
    rw [List.range'_succ, List.foldl_cons]
    have hstep := BInv_step osz counts s i inv hclen hcnt hi (by omega)
    have h2 := ih (i + 1) (mergeStep s i) hstep (by omega) (by omega)
    rw [show i + (m + 1) = i + 1 + m by omega]
    exact h2

theorem buildState_inv (osz : ℕ) (counts : List Int) (hosz : 1 ≤ osz)
    (hclen : counts.length = osz) (hcnt : ∀ c ∈ counts, c < 10 ^ 15) :
    BInv osz counts (buildState osz counts) (2 * osz - 1) := by
  unfold buildState
  have h := BInv_fold osz counts hclen hcnt (osz - 1) osz
    ⟨initTree osz counts, (osz : Int) - 1, (osz : Int)⟩
    (BInv_init osz counts hosz) (le_refl _) (by omega)
  rw [show osz + (osz - 1) = 2 * osz - 1 by omega] at h
  exact h

theorem buildNodes_wf (osz : ℕ) (counts : List Int) (hosz : 1 ≤ osz)
    (hclen : counts.length = osz) (hcnt : ∀ c ∈ counts, c < 10 ^ 15) :
    TreeWF osz (buildNodes osz counts) := by
  by_cases h1 : osz = 1
  · subst h1
    have hbs : buildNodes 1 counts = initTree 1 counts := rfl
    have hng := initTree_nget 1 counts 0 (by omega)
    rw [if_pos (by omega)] at hng
    refine
      { hlen := by rw [hbs]; exact initTree_length 1 counts
        hleaf := ?_
        hbuilt := fun k hk1 hk2 => absurd hk2 (by omega)
        hrootp := ?_
        hcons := fun k hk1 hk2 => absurd (by omega : k = 0) hk2
        hlu := ?_ }
    · intro k hk
      have hk0 : k = 0 := by omega
      subst hk0
      rw [hbs, hng]
      exact ⟨rfl, rfl⟩
    · rw [hbs, show 2 * ((1 : ℕ) : Int) - 2 = ((0 : ℕ) : Int) by norm_num, hng]
    · rw [hbs, show 2 * ((1 : ℕ) : Int) - 2 = ((0 : ℕ) : Int) by norm_num,
        show 2 * 1 = 1 + 1 by norm_num]
      simp only [leavesUnder]
      rw [hng]
      rfl
  · show TreeWF osz (buildState osz counts).t
    have inv := buildState_inv osz counts hosz hclen hcnt
    have hnub2 := inv.hnode_ub' (by omega)
    have hsz := inv.hsize
    have hllb := inv.hleaf_lb
    have hnlb := inv.hnode_lb
    have hleaf : (buildState osz counts).leaf = -1 := by omega
    have hnode : (buildState osz counts).node = 2 * (osz : Int) - 2 := by omega
    refine
      { hlen := inv.hlen
        hleaf := fun k hk => ⟨(inv.hleafrec k hk).1, (inv.hleafrec k hk).2.1⟩
        hbuilt := inv.hbuilt
        hrootp := ?_
        hcons := ?_
        hlu := ?_ }
    · have h := inv.hroot (2 * osz - 2) (by omega) (by omega)
      rw [show (2 * (osz : Int) - 2) = ((2 * osz - 2 : ℕ) : Int) by omega]
      exact h.1
    · intro k hk hkr
      have hcons : Consumed osz (buildState osz counts) k := by
        simp only [Consumed]
        omega
      have h := inv.hcons k hk hcons
      exact ⟨h.1, h.2.1, by have := h.2.2.1; omega, h.2.2.2⟩
    · have h := inv.hcount
      rw [hleaf, hnode] at h
      rw [show ((-1 : Int) + 1).toNat = 0 by omega,
        show (2 * (osz : Int) - 2).toNat = 2 * osz - 2 by omega,
        show 2 * osz - 1 - (2 * osz - 2) = 1 by omega] at h
      simp only [List.range'_succ, List.range'_zero, List.map_cons, List.map_nil,
        List.sum_cons, List.sum_nil, zero_add, add_zero] at h
      rw [show (2 * (osz : Int) - 2) = ((2 * osz - 2 : ℕ) : Int) by omega]
      exact h

theorem pathCodeAux_fuel (osz : ℕ) (t : List HNode) (wf : TreeWF osz t)
    (hosz : 1 ≤ osz) :
    ∀ m k : ℕ, 2 * osz - 1 - k ≤ m → k < 2 * osz - 1 →
      ∀ f1 f2 : ℕ, 2 * osz - 1 - k ≤ f1 → 2 * osz - 1 - k ≤ f2 →
      pathCodeAux t osz f1 (k : Int) = pathCodeAux t osz f2 (k : Int) := by
  intro m
  induction m with
  | zero => intro k hm hk; omega
  | succ m ih =>
    intro k hm hk f1 f2 hf1 hf2
    obtain ⟨g1, rfl⟩ : ∃ g, f1 = g + 1 := ⟨f1 - 1, by omega⟩
    obtain ⟨g2, rfl⟩ : ∃ g, f2 = g + 1 := ⟨f2 - 1, by omega⟩
    simp only [pathCodeAux]
    by_cases hp : (nget t (k : Int)).parent = -1
    · rw [if_pos hp, if_pos hp]
    · rw [if_neg hp, if_neg hp]
      have hkroot : k ≠ 2 * osz - 2 := by
        intro h
        subst h
        apply hp
        rw [show ((2 * osz - 2 : ℕ) : Int) = 2 * (osz : Int) - 2 by omega]
        exact wf.hrootp
      obtain ⟨o1, o2, o3, _⟩ := wf.hcons k hk hkroot
      have hpc : (nget t (k : Int)).parent =
          (((nget t (k : Int)).parent.toNat : ℕ) : Int) :=
        (Int.toNat_of_nonneg (by omega)).symm
      rw [hpc, ih ((nget t (k : Int)).parent.toNat) (by omega) (by omega)
        g1 g2 (by omega) (by omega)]

theorem pathCodeAux_succ_eq (t : List HNode) (osz f : ℕ) (j : Int)
    (hf : 1 ≤ f) :
    pathCodeAux t osz f j =
      if (nget t j).parent = -1 then ([], [])
      else (((nget t j).parent - osz) ::
              (pathCodeAux t osz (f - 1) (nget t j).parent).1,
            (nget t j).binary ::
              (pathCodeAux t osz (f - 1) (nget t j).parent).2) := by
  obtain ⟨g, rfl⟩ : ∃ g, f = g + 1 := ⟨f - 1, by omega⟩
  simp only [pathCodeAux, Nat.add_sub_cancel]

theorem descend_pathCode (osz : ℕ) (t : List HNode) (wf : TreeWF osz t)
    (hosz : 1 ≤ osz) :
    ∀ k : ℕ, k < 2 * osz - 1 →
      descend t (2 * (osz : Int) - 2)
        ((pathCodeAux t osz (2 * osz) (k : Int)).2.reverse) = (k : Int) := by
  suffices h : ∀ m k : ℕ, 2 * osz - 1 - k ≤ m → k < 2 * osz - 1 →
      descend t (2 * (osz : Int) - 2)
        ((pathCodeAux t osz (2 * osz) (k : Int)).2.reverse) = (k : Int) by
    intro k hk
    exact h (2 * osz - 1 - k) k (le_refl _) hk
  intro m
  induction m with
  | zero => intro k hm hk; omega
  | succ m ih =>
    intro k hm hk
    by_cases hroot : k = 2 * osz - 2
    · subst hroot
      have hp : (nget t ((2 * osz - 2 : ℕ) : Int)).parent = -1 := by
        rw [show ((2 * osz - 2 : ℕ) : Int) = 2 * (osz : Int) - 2 by omega]
        exact wf.hrootp
      rw [pathCodeAux_succ_eq t osz (2 * osz) _ (by omega), if_pos hp]
      simp only [List.reverse_nil, descend, List.foldl_nil]
      omega
    · obtain ⟨o1, o2, o3, o4⟩ := wf.hcons k hk hroot
      rw [pathCodeAux_succ_eq t osz (2 * osz) _ (by omega), if_neg (by omega)]
      simp only [List.reverse_cons, descend, List.foldl_append, List.foldl_cons,
        List.foldl_nil]
      have hpc : (nget t (k : Int)).parent =
          (((nget t (k : Int)).parent.toNat : ℕ) : Int) :=
        (Int.toNat_of_nonneg (by omega)).symm
      have hfuel : pathCodeAux t osz (2 * osz - 1) ((nget t (k : Int)).parent) =
          pathCodeAux t osz (2 * osz) ((nget t (k : Int)).parent) := by
        rw [hpc]
        exact pathCodeAux_fuel osz t wf hosz (2 * osz)
          ((nget t (k : Int)).parent.toNat) (by omega) (by omega) (2 * osz - 1)
          (2 * osz) (by omega) (by omega)
      rw [hfuel, hpc]
      have hrec := ih ((nget t (k : Int)).parent.toNat) (by omega) (by omega)
      simp only [descend] at hrec
      rw [hrec, ← hpc]
      cases hb : (nget t (k : Int)).binary
      · rw [hb] at o4
        simp only [Bool.false_eq_true, if_false] at o4
        simp only [Bool.false_eq_true, if_false]
        exact o4
      · rw [hb] at o4
        simp only [if_true] at o4
        simp only [if_true]
        exact o4

theorem pathCodeAux_lengths (t : List HNode) (osz : ℕ) :
    ∀ f j, (pathCodeAux t osz f j).1.length = (pathCodeAux t osz f j).2.length := by
  intro f
  induction f with
  | zero => intro j; rfl
  | succ g ih =>
    intro j
    simp only [pathCodeAux]
    by_cases hp : (nget t j).parent = -1
    · rw [if_pos hp]
      rfl
    · rw [if_neg hp]
      simp [List.length_cons, ih]

theorem sorted_tail {K : Type*} [LinearOrderedField K] (l : List (K × Int))
    (h : List.Sorted (fun a b : K × Int => a.1 ≤ b.1) l) :
    List.Sorted (fun a b : K × Int => a.1 ≤ b.1) l.tail := by
  cases l with
  | nil => exact h
  | cons x xs => exact h.of_cons

theorem heapPush_sorted {K : Type*} [LinearOrderedField K] (x : K × Int)
    (l : List (K × Int)) (h : List.Sorted (fun a b : K × Int => a.1 ≤ b.1) l) :
    List.Sorted (fun a b : K × Int => a.1 ≤ b.1) (heapPush x l) :=
  List.Sorted.orderedInsert x l h

theorem heapPush_length {K : Type*} [LinearOrderedField K] (x : K × Int)
    (l : List (K × Int)) : (heapPush x l).length = l.length + 1 :=
  List.orderedInsert_length _ l x

theorem kbStep_spec {K : Type*} [LinearOrderedField K] (k : ℕ) (hk : 1 ≤ k)
    (heap : List (K × Int)) (si : K × Int) (n : ℕ)
    (hs : List.Sorted (fun a b : K × Int => a.1 ≤ b.1) heap)
    (hlen : heap.length = min k n) :
    List.Sorted (fun a b : K × Int => a.1 ≤ b.1) (kbStep k heap si) ∧
    (kbStep k heap si).length = min k (n + 1) := by
  unfold kbStep
  by_cases hc : heap.length = k ∧ si.1 < (heap.headD (0, 0)).1
  · rw [if_pos hc]
    obtain ⟨hc1, _⟩ := hc
    exact ⟨hs, by omega⟩
  · rw [if_neg hc]
    simp only
    have hl2 := heapPush_length si heap
    have hs2 := heapPush_sorted si heap hs
    by_cases h2 : k < (heapPush si heap).length
    · rw [if_pos h2]
      refine ⟨sorted_tail _ hs2, ?_⟩
      rw [List.length_tail, hl2]
      omega
    · rw [if_neg h2]
      exact ⟨hs2, by omega⟩

theorem findKBest_spec {K : Type*} [LinearOrderedField K] (k osz : ℕ)
    (hk : 1 ≤ k) (output : ℕ → K) :
    List.Sorted (fun a b : K × Int => a.1 ≤ b.1) (findKBest k osz output) ∧
    (findKBest k osz output).length = min k osz := by
  unfold findKBest
  induction osz with
  | zero =>
    simp only [List.range_zero, List.foldl_nil]
    exact ⟨List.sorted_nil, by simp⟩
  | succ m ih =>
    rw [List.range_succ, List.foldl_append, List.foldl_cons, List.foldl_nil]
    exact kbStep_spec k hk _ _ m ih.1 ih.2

theorem TreeWF_childDec (osz : ℕ) (t : List HNode) (wf : TreeWF osz t) :
    ChildDec (2 * osz - 1) t := by
  intro k hk
  by_cases hko : k < osz
  · exact Or.inl (wf.hleaf k hko)
  · obtain ⟨a, b, ha, hb, hak, hbk, _, _⟩ := wf.hbuilt k (by omega) hk
    exact Or.inr ⟨a, b, ha, hb, hak, hbk⟩

theorem dfs_spec {K : Type*} [LinearOrderedField K] (osz : ℕ) (t : List HNode)
    (wf : TreeWF osz t) (hosz : 1 ≤ osz) (fv : Int → K) (lg : K → K)
    (k : ℕ) (hk : 1 ≤ k) :
    ∀ nd : ℕ, nd < 2 * osz - 1 → ∀ fuel, nd < fuel → ∀ (score : K) heap,
      List.Sorted (fun a b : K × Int => a.1 ≤ b.1) heap → heap.length ≤ k →
      List.Sorted (fun a b : K × Int => a.1 ≤ b.1)
        (dfs t fv lg k fuel (nd : Int) score heap) ∧
      (dfs t fv lg k fuel (nd : Int) score heap).length =
        min k (heap.length + leavesUnder t (2 * osz) (nd : Int)) := by
  have hcd := TreeWF_childDec osz t wf
  intro nd
  induction nd using Nat.strong_induction_on with
  | _ nd ih =>
    intro hnd fuel hfuel score heap hs hlen
    obtain ⟨g, rfl⟩ : ∃ g, fuel = g + 1 := ⟨fuel - 1, by omega⟩
    simp only [dfs]
    by_cases hprune : heap.length = k ∧ score < (heap.headD (0, 0)).1
    · rw [if_pos hprune]
      obtain ⟨hp1, _⟩ := hprune
      exact ⟨hs, by omega⟩
    · rw [if_neg hprune]
      by_cases hleafc : (nget t (nd : Int)).left = -1 ∧ (nget t (nd : Int)).right = -1
      · rw [if_pos hleafc]
        have hlu : leavesUnder t (2 * osz) (nd : Int) = 1 := by
          obtain ⟨g2, hg2⟩ : ∃ g2, 2 * osz = g2 + 1 := ⟨2 * osz - 1, by omega⟩
          rw [hg2]
          simp only [leavesUnder]
          rw [if_pos hleafc]
        rw [hlu]
        have hl2 := heapPush_length (score, (nd : Int)) heap
        have hs2 := heapPush_sorted (score, (nd : Int)) heap hs
        by_cases h2 : k < (heapPush (score, (nd : Int)) heap).length
        · rw [if_pos h2]
          refine ⟨sorted_tail _ hs2, ?_⟩
          rw [List.length_tail, hl2]
          omega
        · rw [if_neg h2]
          exact ⟨hs2, by omega⟩
      · rw [if_neg hleafc]
        have hndosz : osz ≤ nd := by
          by_contra h
          exact hleafc (wf.hleaf nd (by omega))
        obtain ⟨a, b, ha, hb, hak, hbk, hab, hcnt⟩ := wf.hbuilt nd hndosz hnd
        have hlu : leavesUnder t (2 * osz) (nd : Int) =
            leavesUnder t (2 * osz) (a : Int) + leavesUnder t (2 * osz) (b : Int) := by
          obtain ⟨g2, hg2⟩ : ∃ g2, 2 * osz = g2 + 1 := ⟨2 * osz - 1, by omega⟩
          conv_lhs => rw [hg2]
          simp only [leavesUnder]
          rw [if_neg hleafc, ha, hb,
            leavesUnder_fuel t (2 * osz - 1) hcd a (by omega) g2 (2 * osz)
              (by omega) (by omega),
            leavesUnder_fuel t (2 * osz - 1) hcd b (by omega) g2 (2 * osz)
              (by omega) (by omega)]
        rw [ha, hb]
        obtain ⟨hs1, hlen1⟩ := ih a hak (by omega) g (by omega)
          (score + lg (1 - fv (nd : Int))) heap hs hlen
        obtain ⟨hs2, hlen2⟩ := ih b hbk (by omega) g (by omega)
          (score + lg (fv (nd : Int))) _ hs1 (by rw [hlen1]; omega)
        refine ⟨hs2, ?_⟩
        rw [hlen2, hlen1, hlu]
        omega

/-- Claim C1 amended: for every non-empty frequency table sorted in
non-decreasing order *whose entries are all below the `1e15` sentinel*,
`buildTree` produces exactly `2C-1` nodes, every class's path and code
sequences have equal length, and every internal node (indices `C..2C-2`)
has two distinct children among the `2C-1` nodes whose counts sum to its
own count.  (Without the bound, counts collide with the sentinel marking
unconstructed slots; see the counterexample.) -/
theorem buildTree_structure (counts : List Int) (hosz : 1 ≤ counts.length)
    (hsorted : List.Sorted (· ≤ ·) counts)
    (hcnt : ∀ c ∈ counts, c < 10 ^ 15) :
    (buildNodes counts.length counts).length = 2 * counts.length - 1 ∧
    (∀ c : ℕ, c < counts.length →
      (huffPath counts.length counts c).length =
        (huffCode counts.length counts c).length) ∧
    (∀ k : ℕ, counts.length ≤ k → k < 2 * counts.length - 1 →
      ∃ a b : ℕ, a < 2 * counts.length - 1 ∧ b < 2 * counts.length - 1 ∧ a ≠ b ∧
        (nget (buildNodes counts.length counts) (k : Int)).left = (a : Int) ∧
        (nget (buildNodes counts.length counts) (k : Int)).right = (b : Int) ∧
        (nget (buildNodes counts.length counts) (a : Int)).count +
          (nget (buildNodes counts.length counts) (b : Int)).count =
          (nget (buildNodes counts.length counts) (k : Int)).count) := by
  have wf := buildNodes_wf counts.length counts hosz rfl hcnt
  refine ⟨wf.hlen, ?_, ?_⟩
  · intro c _
    exact pathCodeAux_lengths _ _ _ _
  · intro k hk1 hk2
    obtain ⟨a, b, ha, hb, hak, hbk, hab, hc⟩ := wf.hbuilt k hk1 hk2
    exact ⟨a, b, by omega, by omega, hab, ha, hb, hc.symm⟩

/-- Witness for `buildTree_structure`: the sorted table `[1, 2]`. -/
theorem buildTree_structure_witness :
    (buildNodes ([1, 2] : List Int).length [1, 2]).length =
      2 * ([1, 2] : List Int).length - 1 ∧
    (∀ c : ℕ, c < ([1, 2] : List Int).length →
      (huffPath ([1, 2] : List Int).length [1, 2] c).length =
        (huffCode ([1, 2] : List Int).length [1, 2] c).length) ∧
    (∀ k : ℕ, ([1, 2] : List Int).length ≤ k →
      k < 2 * ([1, 2] : List Int).length - 1 →
      ∃ a b : ℕ, a < 2 * ([1, 2] : List Int).length - 1 ∧
        b < 2 * ([1, 2] : List Int).length - 1 ∧ a ≠ b ∧
        (nget (buildNodes ([1, 2] : List Int).length [1, 2]) (k : Int)).left = (a : Int) ∧
        (nget (buildNodes ([1, 2] : List Int).length [1, 2]) (k : Int)).right = (b : Int) ∧
        (nget (buildNodes ([1, 2] : List Int).length [1, 2]) (a : Int)).count +
          (nget (buildNodes ([1, 2] : List Int).length [1, 2]) (b : Int)).count =
          (nget (buildNodes ([1, 2] : List Int).length [1, 2]) (k : Int)).count) :=
  buildTree_structure [1, 2] (by decide) (by decide) (by decide)

/-- Claim C2 amended: for every non-empty sorted frequency table with all
entries below `1e15`, interpreting a class's stored (leaf-to-root) code
bits in root-to-leaf order — bit 1 to the right child, bit 0 to the left —
descends from the root `2C-2` back to exactly that leaf. -/
theorem huffman_roundtrip (counts : List Int) (hosz : 1 ≤ counts.length)
    (hsorted : List.Sorted (· ≤ ·) counts)
    (hcnt : ∀ c ∈ counts, c < 10 ^ 15) :
    ∀ c : ℕ, c < counts.length →
      descend (buildNodes counts.length counts) (2 * (counts.length : Int) - 2)
        ((huffCode counts.length counts c).reverse) = (c : Int) := by
  intro c hc
  exact descend_pathCode counts.length (buildNodes counts.length counts)
    (buildNodes_wf counts.length counts hosz rfl hcnt) hosz c (by omega)

/-- Witness for `huffman_roundtrip`: both classes of the sorted table
`[1, 2]` are reconstructed by descending along their reversed codes. -/
theorem huffman_roundtrip_witness :
    descend (buildNodes ([1, 2] : List Int).length [1, 2])
        (2 * (([1, 2] : List Int).length : Int) - 2)
        ((huffCode ([1, 2] : List Int).length [1, 2] 0).reverse) = ((0 : ℕ) : Int) ∧
    descend (buildNodes ([1, 2] : List Int).length [1, 2])
        (2 * (([1, 2] : List Int).length : Int) - 2)
        ((huffCode ([1, 2] : List Int).length [1, 2] 1).reverse) = ((1 : ℕ) : Int) :=
  ⟨huffman_roundtrip [1, 2] (by decide) (by decide) (by decide) 0 (by decide),
   huffman_roundtrip [1, 2] (by decide) (by decide) (by decide) 1 (by decide)⟩

/-- Claim C3 amended: for every non-empty input bag and `k ≥ 1`, `predict`
returns a sequence sorted in non-increasing (not necessarily strict) order
of score whose length is `min k C`, in the heap-scan configuration and in
the Huffman-tree DFS configuration alike (the tree built from a sorted
table with counts below `1e15`). -/
theorem predict_topk {K : Type*} [LinearOrderedField K] (loss : LossName)
    (counts : List Int) (wi wo : ℕ → ℕ → K) (hsz : ℕ) (sig lg : K → K)
    (input : List ℕ) (k : ℕ)
    (hk : 1 ≤ k) (hin : input ≠ []) (hosz : 1 ≤ counts.length)
    (hsorted : List.Sorted (· ≤ ·) counts)
    (hcnt : ∀ c ∈ counts, c < 10 ^ 15) :
    ∃ r, predict loss (buildNodes counts.length counts) wi wo hsz counts.length
        sig lg input k = some r ∧
      List.Pairwise (fun a b : K × Int => b.1 ≤ a.1) r ∧
      r.length = min k counts.length := by
  have wf := buildNodes_wf counts.length counts hosz rfl hcnt
  unfold predict
  have hch : computeHidden wi input =
      some (fun j => accRows wi input j * (1 / (input.length : K))) := by
    unfold computeHidden
    rw [if_neg (fun h => hin (List.length_eq_zero.mp h))]
  rw [hch]
  dsimp only
  by_cases hloss : loss = LossName.hs
  · rw [if_pos hloss]
    have hroot : (2 * ((counts.length : ℕ) : Int) - 2) =
        ((2 * counts.length - 2 : ℕ) : Int) := by omega
    have hd := dfs_spec counts.length (buildNodes counts.length counts) wf hosz
      (fun node => sig (dotRowI hsz wo
        (fun j => accRows wi input j * (1 / (input.length : K))) (node - counts.length)))
      lg k hk (2 * counts.length - 2) (by omega) (2 * counts.length) (by omega)
      0 [] List.sorted_nil (by simp)
    rw [hroot]
    refine ⟨_, rfl, ?_, ?_⟩
    · rw [List.pairwise_reverse]
      exact hd.1
    · rw [List.length_reverse, hd.2]
      have hlu : leavesUnder (buildNodes counts.length counts)
          (2 * counts.length) ((2 * counts.length - 2 : ℕ) : Int) = counts.length := by
        rw [← hroot]
        exact wf.hlu
      rw [hlu]
      simp
  · rw [if_neg hloss]
    have hf := findKBest_spec k counts.length hk
      (fun i => dotN hsz (wo i) (fun j => accRows wi input j * (1 / (input.length : K))))
    refine ⟨_, rfl, ?_, ?_⟩
    · rw [List.pairwise_reverse]
      exact hf.1
    · rw [List.length_reverse]
      exact hf.2

/-- Witness for `predict_topk`: zero tables over ℚ, two classes, `k = 1`,
heap-scan configuration. -/
theorem predict_topk_witness :
    ∃ r, predict (K := ℚ) LossName.ns
        (buildNodes ([1, 2] : List Int).length [1, 2]) (fun _ _ => 0)
        (fun _ _ => 0) 1 ([1, 2] : List Int).length id id [0] 1 = some r ∧
      List.Pairwise (fun a b : ℚ × Int => b.1 ≤ a.1) r ∧
      r.length = min 1 ([1, 2] : List Int).length :=
  predict_topk LossName.ns [1, 2] (fun _ _ => 0) (fun _ _ => 0) 1 id id [0] 1
    (by decide) (by decide) (by decide) (by decide) (by decide)
